import Mathlib

/-!
Verification of the pyc6t toolchain (C version 6 compiler for the Intel 8080)
against its natural-language specification.

Shallow embedding of the relevant parts of the sources:
  util.py     : the 16-bit `word` normalisation
  type6.py    : type elements, type strings, `tysize`
  opinfo.py   : operator flag tables
  expr.py     : expression nodes, `confold` constant folding, the `build`
                node builder
  preproc.py  : the textual preprocessor
  linker.py   : object modules, serialisation, symbol resolution, linking
  asm80.py    : the assembler's statement parser (the `=` / `.equ` path)

Python `int` is modelled as `Int`, `bytes` as `List Nat` (each entry < 256),
`str` as `String` or `List Char` depending on how the source manipulates it,
`dict` as an insertion-ordered association list (assignment to an existing
key keeps its position, as in Python), and raised exceptions as `Option` /
`Except` failure values.
-/

/-! ## util.py -/

/-- Python `i ^ 0xFFFF` on an arbitrary-precision two's-complement integer:
it flips the low 16 bits and leaves all higher (sign) bits unchanged, so the
result is `i - low + (65535 - low)` where `low = i mod 2^16`. -/
def xor16 (i : Int) : Int := i + 65535 - 2 * (i % 65536)

/-- Python `i & 0xFFFF` on an arbitrary-precision two's-complement integer:
the low 16 bits, i.e. `i mod 2^16` (nonnegative). -/
def and16 (i : Int) : Int := i % 65536

/-- util.py `word(i)`: the source reads

    if i < 0:
        i = (i ^ 0xFFFF) + 1
    return i & 0xFFFF

Note the negative branch applies a two's-complement negation to `i` itself,
so for `i < 0` the result is `(-i) mod 2^16` (e.g. `word (-1) = 1`),
not `i mod 2^16`. -/
def word (i : Int) : Nat :=
  if i < 0 then (and16 (xor16 i + 1)).toNat else (and16 i).toNat

/-! ## Python container helpers

Python dicts keep insertion order; assignment to an existing key updates it
in place.  They are modelled as association lists with `lookupAL` / `aset`.
A list comprehension that can raise is `mapOpt`. -/

/-- Generic insertion-ordered association lookup (Python `d[k]` /
`k in d`). -/
def lookupAL {A B : Type} [BEq A] (m : List (A × B)) (k : A) : Option B :=
  (m.find? (fun p => p.1 == k)).map Prod.snd

/-- Python `d[k] = v`: overwrite in place if the key exists (keeping its
position, as Python dicts do), else append. -/
def aset {A B : Type} [BEq A] : List (A × B) → A → B → List (A × B)
  | [], k, v => [(k, v)]
  | p :: rest, k, v => if p.1 == k then (k, v) :: rest else p :: aset rest k v

/-- Python `dict.update(d2)`: apply `aset` for each pair of `d2` in order. -/
def updateAL {A B : Type} [BEq A] (m : List (A × B)) (l : List (A × B)) : List (A × B) :=
  l.foldl (fun t p => aset t p.1 p.2) m

/-- Left-to-right effectful map, mirroring a Python list comprehension that
can raise: the first failure aborts. -/
def mapOpt {A B : Type} (f : A → Option B) : List A → Option (List B)
  | [] => some []
  | a :: rest => do
      let b ← f a
      let bs ← mapOpt f rest
      pure (b :: bs)

/-! ## type6.py -/

namespace Expr

/-- type6.py `BaseType | ModType`: the kinds of a single type element. -/
inductive TyKind where
  | int | char | float | double | struct | point | func | array
deriving DecidableEq, Repr

/-- type6.py `TypeElem`: one layer of a C6T type.  `size` is only
meaningful for struct (byte size) and array (element count). -/
structure TypeElem where
  type : TyKind
  size : Nat := 0
deriving DecidableEq, Repr

/-- type6.py `TypeElem.pointer`. -/
def TypeElem.pointer (e : TypeElem) : Bool :=
  e.type == TyKind.point || e.type == TyKind.array

/-- type6.py `TypeElem.floating`. -/
def TypeElem.floating (e : TypeElem) : Bool :=
  e.type == TyKind.float || e.type == TyKind.double

/-- type6.py `TypeElem.sized`. -/
def TypeElem.sized (e : TypeElem) : Bool :=
  e.type == TyKind.struct || e.type == TyKind.array

/-- type6.py `TypeElem.tysize`: size in bytes of one element (element count
for an array). -/
def TypeElem.tysize (e : TypeElem) : Nat :=
  match e.type with
  | TyKind.int | TyKind.point | TyKind.func => 2
  | TyKind.char => 1
  | TyKind.float => 4
  | TyKind.double => 8
  | _ => e.size

/-- type6.py custom `TypeElem.__eq__`: kinds must agree, and sizes are
compared only when both elements are sized (struct/array). -/
def TypeElem.eq6 (a b : TypeElem) : Bool :=
  a.type == b.type && (!(a.sized && b.sized) || a.size == b.size)

def Int6 : TypeElem := ⟨TyKind.int, 0⟩
def Char6 : TypeElem := ⟨TyKind.char, 0⟩
def Double6 : TypeElem := ⟨TyKind.double, 0⟩
def Point6 : TypeElem := ⟨TyKind.point, 0⟩
def Func6 : TypeElem := ⟨TyKind.func, 0⟩

/-- Python elementwise `==` on type strings through `TypeElem.eq6`. -/
def tyeqList : List TypeElem → List TypeElem → Bool
  | [], [] => true
  | a :: as_, b :: bs => a.eq6 b && tyeqList as_ bs
  | _, _ => false

/-- type6.py `tysize(typestr)`: byte size of a type string.  The source
asserts the list is nonempty; the empty case (unreachable under that
assertion) is given the junk value 0. -/
def tysize : List TypeElem → Nat
  | [] => 0
  | e :: rest =>
      if e.type == TyKind.array then tysize rest * e.tysize else e.tysize

/-! ## opinfo.py

Each `Flags` table is a mapping from label to flag defaulting to `False`;
as a predicate that is just membership of the key list. -/

def noconv (l : String) : Bool :=
  ["comma", "logor", "logand", "postinc", "preinc", "postdec", "predec"].contains l

def assignops : List String :=
  ["assign", "asnadd", "asnsub", "asnmult", "asndiv", "asnmod", "asnrshift",
   "asnlshift", "asnand", "asneor", "asnor"]

def isint (l : String) : Bool := ["logor", "logand"].contains l

def lessgreatList : List String :=
  ["less", "great", "lequ", "gequ", "uless", "ugreat", "ulequ", "ugequ"]

def lessgreat (l : String) : Bool := lessgreatList.contains l

def compareops : List String := ["equ", "nequ"] ++ lessgreatList

/-- opinfo.py `yesflt`: the floating-capable operator flag table.  It is the
underlying key/value list that matters for the bug in expr.py line 272: the
source there tests `not opinfo.yesflt`, i.e. the truthiness (nonemptiness)
of this mapping itself, not the entry for a label. -/
def yesflt : List (String × Bool) :=
  [("add", true), ("sub", true), ("mult", true), ("div", true), ("neg", true)]

def needlval (l : String) : Bool :=
  (assignops ++ ["preinc", "postinc", "predec", "postdec", "dot", "addr"]).contains l

def islval (l : String) : Bool := ["dot", "arrow", "deref", "name"].contains l

def nopointconv (l : String) : Bool := (assignops ++ compareops).contains l

/-! ## expr.py: nodes and constant folding -/

/-- Leaf payloads (expr.py `Leaf.value`).  Floating constants carry no
payload here: no spec claim inspects a float value. -/
inductive Value where
  | int (i : Int)
  | flt
  | str (bs : List Nat)
  | sym (name : String)
deriving DecidableEq, Repr

/-- expr.py `Node` / `Leaf`: an expression node.  `value = none` for a plain
`Node`, `value = some v` for a `Leaf` (reading `.value` of a plain node
raises in Python, modelled by `Option` access). -/
inductive Node where
  | mk (label : String) (linenum : Int) (typestr : List TypeElem)
       (children : List Node) (value : Option Value)

def Node.label : Node → String
  | .mk l _ _ _ _ => l

def Node.linenum : Node → Int
  | .mk _ n _ _ _ => n

def Node.typestr : Node → List TypeElem
  | .mk _ _ t _ _ => t

def Node.children : Node → List Node
  | .mk _ _ _ c _ => c

def Node.value : Node → Option Value
  | .mk _ _ _ _ v => v

/-- Convenience constructor for a `con` leaf as in expr.py
(`Leaf('con', linenum, [Int6], [], value)`). -/
def conLeaf (linenum : Int) (v : Int) : Node :=
  .mk "con" linenum [Int6] [] (some (Value.int v))

/-- Read a child's `.value` as the integer Python would hand to `word`:
fails (Python AttributeError / TypeError) unless the node is a leaf with an
integer payload. -/
def conval (n : Node) : Option Int :=
  match n.value with
  | some (Value.int i) => some i
  | _ => none

/-- expr.py `confold(node)`: if every child is labelled `con`, fold the node
to a single `con` leaf.  Failure (`none`) models an uncaught Python
exception: a `con`-labelled child without an integer payload, or
ZeroDivisionError when the divisor's `word` value is 0.  The source's final
`case _: return Node` arm returns the class object `Node` itself (a slip);
every later use of that value fails, so it is also modelled as `none`. -/
def confold (node : Node) : Option Node :=
  if node.children.any (fun n => n.label != "con") then some node
  else do
    let children ← mapOpt (fun c => (conval c).map word) node.children
    let l := node.label
    let result ←
      if l == "add" then some (word (Int.ofNat (children.foldl (· + ·) 0)))
      else if l == "sub" then do
        let a ← children[0]?
        let b ← children[1]?
        some (word (Int.ofNat a - Int.ofNat b))
      else if l == "mult" then do
        let a ← children[0]?
        let b ← children[1]?
        some (word (Int.ofNat (a * b)))
      else if l == "div" then do
        let a ← children[0]?
        let b ← children[1]?
        if b = 0 then none else some (word (Int.ofNat (a / b)))
      else if l == "mod" then do
        let a ← children[0]?
        let b ← children[1]?
        if b = 0 then none else some (word (Int.ofNat (a % b)))
      else if l == "and" then do
        let a ← children[0]?
        let b ← children[1]?
        some (word (Int.ofNat (a &&& b)))
      else if l == "or" then do
        let a ← children[0]?
        let b ← children[1]?
        some (word (Int.ofNat (a ||| b)))
      else if l == "eor" then do
        let a ← children[0]?
        let b ← children[1]?
        some (word (Int.ofNat (a ^^^ b)))
      else if l == "lshift" then do
        let a ← children[0]?
        let b ← children[1]?
        some (word (Int.ofNat (a <<< b)))
      else if l == "rshift" then do
        let a ← children[0]?
        let b ← children[1]?
        some (word (Int.ofNat (a >>> b)))
      else if l == "neg" then do
        let a ← children[0]?
        some (word (-(Int.ofNat a)))
      else if l == "compl" then do
        let a ← children[0]?
        some (word (-(Int.ofNat a) - 1))
      else none
    pure (conLeaf node.linenum (Int.ofNat result))

/-- expr.py function `floating(*nodes)`: `any` over `n.typestr[0].floating`.
Python's `any` short-circuits at the first `True`; accessing `typestr[0]` of
an empty type string raises (modelled as `none`). -/
def floatingAny : List Node → Option Bool
  | [] => some false
  | n :: rest =>
      match n.typestr with
      | [] => none
      | e :: _ => if e.floating then some true else floatingAny rest

/-- expr.py function `pointer(*nodes)`, same shape as `floatingAny`. -/
def pointerAny : List Node → Option Bool
  | [] => some false
  | n :: rest =>
      match n.typestr with
      | [] => none
      | e :: _ => if e.pointer then some true else pointerAny rest

/-- expr.py `doarray(node)`: decay an array-typed node into
`addr` of pointer type.  The `and` in the source short-circuits, so the
type string is only read when the label is not `addr`. -/
def doarray (node : Node) : Option Node :=
  if node.label == "addr" then some node
  else
    match node.typestr with
    | [] => none
    | e :: rest =>
        if e.type == TyKind.array then
          some (.mk "addr" node.linenum (Point6 :: rest) [node] none)
        else some node

/-- expr.py `dofunc(node)`: decay a function-typed node.  The source builds
`Node('addr', node.linenum, [Point6] + node.typestr, node)`, passing the
node itself (not a singleton list) as the children field; the dataclass
`__post_init__` assertion `isinstance(self.children, list)` then fails, so
the decay always raises when it fires, modelled as `none`. -/
def dofunc (node : Node) : Option Node :=
  match node.typestr with
  | [] => none
  | e :: _ => if e.type == TyKind.func then none else some node

/-- Composition `dofunc(doarray(child))` used on operands past the first. -/
def decay1 (c : Node) : Option Node := (doarray c).bind dofunc

/-- The float-promotion pass of expr.py `build` (lines 237-242): wrap each
non-floating operand in a recursively built `toflt` node.  `bld` is the
recursive call at the smaller fuel. -/
def convFlt (bld : Int → Option String → List Node → Option (Node × List String))
    (linenum : Int) : List Node → Option (List Node × List String)
  | [] => some ([], [])
  | c :: rest => do
      let (c', errs) ←
        match c.typestr with
        | [] => none
        | e :: _ =>
            if e.floating then some (c, ([] : List String))
            else bld linenum (some "toflt") [c]
      let (rest', errs') ← convFlt bld linenum rest
      pure (c' :: rest', errs ++ errs')

/-- The pointer-scaling pass of expr.py `build` (lines 245-264): find the
first pointer operand's pointee size, then wrap each non-pointer operand in
`mult` by that size. -/
def firstPointeeSize : List Node → Option Nat
  | [] => some 1
  | c :: rest =>
      match c.typestr with
      | [] => none
      | e :: ts => if e.pointer then some (tysize ts) else firstPointeeSize rest

def convPoint (bld : Int → Option String → List Node → Option (Node × List String))
    (linenum : Int) (size : Nat) : List Node → Option (List Node × List String)
  | [] => some ([], [])
  | c :: rest => do
      let (c', errs) ←
        match c.typestr with
        | [] => none
        | e :: _ =>
            if e.pointer then some (c, ([] : List String))
            else bld linenum (some "mult") [c, conLeaf linenum (Int.ofNat size)]
      let (rest', errs') ← convPoint bld linenum size rest
      pure (c' :: rest', errs ++ errs')

/-- The typestr inference of expr.py `build` (lines 171-185). -/
def inferTypestr (children : List Node) : Option (List TypeElem) :=
  match children with
  | [c] => some c.typestr
  | [] => some [Int6]
  | _ => do
      let fl ← floatingAny children
      if fl then pure [Double6]
      else do
        let pt ← pointerAny children
        if pt then
          match children.find? (fun c => c.typestr.head?.elim false (·.pointer)) with
          | some c => pure c.typestr
          | none => none
        else pure [Int6]

/-- expr.py `build(parser, linenum, label, children)`.  Returns the built
node together with the diagnostics issued by `parser.error`, in order;
`none` models an uncaught Python exception (or fuel exhaustion — `build`
recurses into itself only for the implicit `toflt` / `mult` conversions, to
depth at most 2).

Faithfully kept source slips:
  - the post/pre inc/dec match arm reads
    `case 'postinc' | 'preinc' | 'postdec' | 'preinc':` — `'preinc'` is
    repeated and `'predec'` is absent, so `predec` nodes skip the
    normalisation entirely;
  - the inc/dec step size for a pointer lvalue is
    `tysize(node.children[0].typestr)` — the size of the whole (pointer)
    type string, not of the pointee;
  - the floating-type check reads `not opinfo.yesflt`, the truthiness of
    the (nonempty) flag mapping itself, which is always `False`. -/
def build (fuel : Nat) (linenum : Int) (label : Option String)
    (children : List Node) : Option (Node × List String) :=
  match fuel with
  | 0 => none
  | fuel + 1 =>
    match label with
    | none => do
        let c ← children.head?
        let c' ← decay1 c
        pure (c', [])
    | some l =>
      if l == "sizeof" then do
        let c ← children.head?
        pure (.mk "con" c.linenum [Int6] [] (some (.int (Int.ofNat (tysize c.typestr)))), [])
      else if l == "call" then do
        let c ← children.head?
        let e ← c.typestr.head?
        let errs := if e.type == TyKind.func then [] else ["call of non-function"]
        pure (.mk "call" linenum c.typestr.tail children none, errs)
      else do
        let typestr ← inferTypestr children
        -- in-place decay of the children list (lines 188-194)
        let cur ←
          match children with
          | [] => if l == "addr" then some [] else none
          | c0 :: ctail => do
              let ctail' ← mapOpt decay1 ctail
              if l == "addr" then pure (c0 :: ctail')
              else do
                let c0' ← doarray c0
                let c0'' ← if l == "call" then pure c0' else dofunc c0'
                pure (c0'' :: ctail')
        let errs0 ←
          if needlval l then do
            let c0 ← cur.head?
            pure (if islval c0.label then ([] : List String) else ["missing required lval"])
          else pure ([] : List String)
        -- the `match label` block (lines 199-234); `.inl` means return now
        let step : Sum (Node × List String) (Node × List Node × List String) ←
          if l == "toint" then
            pure (Sum.inl (.mk l linenum [Int6] cur none, errs0))
          else if l == "toflt" then
            pure (Sum.inl (.mk l linenum [Double6] cur none, errs0))
          else if l == "cond" then
            match cur with
            | [_, left, right] =>
                let ts := if tyeqList left.typestr right.typestr
                          then left.typestr else [Int6]
                pure (Sum.inl (.mk l linenum ts cur none, errs0))
            | _ => none
          else if l == "deref" then do
            let c0 ← cur.head?
            if c0.label == "addr" then pure (Sum.inl (c0, errs0))
            else do
              let e ← typestr.head?
              if e.pointer then
                pure (Sum.inr (.mk l linenum typestr.tail cur none, cur, errs0))
              else
                pure (Sum.inr (.mk l linenum typestr cur none, cur,
                            errs0 ++ ["dereference of non-pointer"]))
          else if l == "addr" then do
            let c0 ← cur.head?
            if c0.label == "deref" then
              pure (Sum.inr (.mk c0.label c0.linenum (Point6 :: c0.typestr)
                            c0.children c0.value, cur, errs0))
            else
              pure (Sum.inr (.mk l linenum (Point6 :: typestr) cur none, cur, errs0))
          else if l == "postinc" || l == "preinc" || l == "postdec" || l == "preinc" then do
            let c0 ← cur.head?
            let pt ← pointerAny [c0]
            let size := if pt then tysize c0.typestr else 1
            let cur' := [c0, conLeaf linenum (Int.ofNat size)]
            pure (Sum.inr (.mk l linenum typestr cur' none, cur', errs0))
          else
            pure (Sum.inr (.mk l linenum typestr cur none, cur, errs0))
        match step with
        | .inl (n, errs) => pure (n, errs)
        | .inr (node0, curList, errs1) => do
          -- implicit conversions (lines 236-264)
          let (node1, errs2) ←
            if curList.length == 2 && !noconv node0.label then do
              let fl ← floatingAny node0.children
              if fl then do
                let (cs, e) ← convFlt (build fuel) linenum node0.children
                pure (Node.mk node0.label node0.linenum node0.typestr cs node0.value, e)
              else do
                let pt ← pointerAny node0.children
                if pt && !nopointconv node0.label then do
                  let size ← firstPointeeSize node0.children
                  let (cs, e) ← convPoint (build fuel) linenum size node0.children
                  pure (Node.mk node0.label node0.linenum node0.typestr cs node0.value, e)
                else pure (node0, ([] : List String))
            else pure (node0, ([] : List String))
          let node2 := if isint node1.label then
              Node.mk node1.label node1.linenum [Int6] node1.children node1.value
            else node1
          let node3 ←
            if lessgreat node2.label then do
              let pt ← pointerAny node2.children
              if pt && node2.label.front != 'u' then
                pure (Node.mk ("u" ++ node2.label) node2.linenum node2.typestr
                        node2.children node2.value)
              else pure node2
            else pure node2
          let fl ← floatingAny (node3.children ++ [node3])
          let errs3 := if fl && yesflt.isEmpty
                       then ["illegal operation for floating type"] else []
          let folded ← confold node3
          pure (folded, errs1 ++ errs2 ++ errs3)

end Expr

/-! ## preproc.py -/

namespace Pp

/-- Python `str` whitespace, for `strip` and `split` (the ASCII cases; the
toolchain's sources are ASCII). -/
def pyWs (c : Char) : Bool :=
  c.val == 32 || c.val == 9 || c.val == 10 || c.val == 13 ||
  c.val == 11 || c.val == 12

/-- Python `str.strip()`. -/
def pyStrip (s : List Char) : List Char :=
  ((s.dropWhile pyWs).reverse.dropWhile pyWs).reverse

/-- Python universal line boundaries recognised by `str.splitlines`. -/
def isLineBreak (c : Char) : Bool :=
  c.val == 10 || c.val == 13 || c.val == 11 || c.val == 12 ||
  c.val == 28 || c.val == 29 || c.val == 30 ||
  c.val == 133 || c.val == 8232 || c.val == 8233

/-- Python `str.splitlines(keepends=True)`: `acc` holds the reversed
characters of the line being scanned; `\r\n` counts as one terminator. -/
def splitlinesAux : List Char → List Char → List (List Char)
  | [], acc => if acc.isEmpty then [] else [acc.reverse]
  | '\r' :: '\n' :: rest, acc =>
      (acc.reverse ++ ['\r', '\n']) :: splitlinesAux rest []
  | c :: rest, acc =>
      if isLineBreak c then (acc.reverse ++ [c]) :: splitlinesAux rest []
      else splitlinesAux rest (c :: acc)

def splitlines (s : List Char) : List (List Char) := splitlinesAux s []

/-- preproc.py `strip_comments(text)`: remove `/* ... */` comments at the
character level; an unterminated comment consumes the remainder.  The flag
is true while inside a comment. -/
def stripCommentsAux : Bool → List Char → List Char
  | _, [] => []
  | false, '/' :: '*' :: rest => stripCommentsAux true rest
  | false, c :: rest => c :: stripCommentsAux false rest
  | true, '*' :: '/' :: rest => stripCommentsAux false rest
  | true, _ :: rest => stripCommentsAux true rest

def strip_comments (s : List Char) : List Char := stripCommentsAux false s

/-- Stable insertion of a macro key into a list sorted by descending
length: `k` goes after every key at least as long, matching the stable
`sorted(keys, key=len, reverse=True)` of preproc.py `replace`. -/
def insertByLen (k : List Char) : List (List Char) → List (List Char)
  | [] => [k]
  | x :: xs => if x.length < k.length then k :: x :: xs else x :: insertByLen k xs

def sortKeysDesc (keys : List (List Char)) : List (List Char) :=
  keys.foldl (fun acc k => insertByLen k acc) []

/-- The first (longest, earliest-registered) macro key that the line starts
with at the current position. -/
def findMacro (keys : List (List Char)) (line : List Char) : Option (List Char) :=
  keys.find? (fun k => k.isPrefixOf line)

/-- The scanning loop of preproc.py `replace`: at each position, substitute
the first matching key or copy one character.  The fuel models the
possibility of an empty key (on which the Python loop would not advance);
one unit is spent per iteration and each iteration with a nonempty key
consumes at least one character, so `line.length + 1` fuel suffices. -/
def replaceAux (macros : List (List Char × List Char)) (keys : List (List Char)) :
    Nat → List Char → Option (List Char)
  | _, [] => some []
  | 0, _ :: _ => none
  | fuel + 1, c :: rest =>
      match findMacro keys (c :: rest) with
      | some k =>
          let v := (lookupAL macros k).getD []
          (replaceAux macros keys fuel (List.drop k.length (c :: rest))).map (v ++ ·)
      | none => (replaceAux macros keys fuel rest).map (c :: ·)

/-- preproc.py `replace(line, macros)`. -/
def replace (line : List Char) (macros : List (List Char × List Char)) :
    Option (List Char) :=
  replaceAux macros (sortKeysDesc (macros.map Prod.fst)) (line.length + 1) line

/-- Python `line.split(maxsplit=2)`. -/
def splitMax2 (s : List Char) : List (List Char) :=
  let s1 := s.dropWhile pyWs
  if s1.isEmpty then []
  else
    let t1 := s1.takeWhile (fun c => !pyWs c)
    let r1 := (s1.dropWhile (fun c => !pyWs c)).dropWhile pyWs
    if r1.isEmpty then [t1]
    else
      let t2 := r1.takeWhile (fun c => !pyWs c)
      let r2 := (r1.dropWhile (fun c => !pyWs c)).dropWhile pyWs
      if r2.isEmpty then [t1, t2] else [t1, t2, r2]

/-- Python `line.count(chr(10))`. -/
def countNL (s : List Char) : Nat := s.countP (· == '\n')

/-- The regular expression match of the include directive,
`^include\s+"([^"]*)"\s*$`, on the stripped line. -/
def parseInclude (s : List Char) : Option (List Char) :=
  match s with
  | 'i' :: 'n' :: 'c' :: 'l' :: 'u' :: 'd' :: 'e' :: rest =>
      match rest with
      | c :: rest2 =>
          if pyWs c then
            match rest2.dropWhile pyWs with
            | '"' :: r2 =>
                let nm := r2.takeWhile (fun d => d != '"')
                match r2.dropWhile (fun d => d != '"') with
                | '"' :: tail => if tail.all pyWs then some nm else none
                | _ => none
            | _ => none
          else none
      | [] => none
  | _ => none

/-- The mutable state of the preproc.py main loop: the pending lines of the
`Includer` deque, the macro table, the accumulated output, the line
counter with its `@`-toggled counting flag, the `Includer.in_include`
depth flag, and the error count. -/
structure PPState where
  lines : List (List Char)
  macros : List (List Char × List Char)
  out : List Char
  curline : Nat
  countlines : Bool
  in_include : Bool
  errs : Nat

/-- Result of one iteration of the loop: finished with the output, crashed
(uncaught exception), or continuing in a new state. -/
inductive PPStep where
  | done (out : List Char)
  | fail
  | next (st : PPState)

/-- The directive half of the preproc.py loop body (after `#` is stripped
from the line): `define` registers a macro, `include` splices the included
file's lines between `@` markers.  `Includer.include` tests
`if not path.exists:` — a method object, always truthy, so the branch never
fires and a missing file raises inside `read_text` (modelled `.fail`);
a nested include is only counted as an error. -/
def ppHash (fs : List (List Char × List Char)) (st : PPState) (line : List Char) :
    PPStep :=
  if ("define".toList).isPrefixOf line then
    match splitMax2 line with
    | _ :: e1 :: e2 :: _ =>
        if (lookupAL st.macros e1).isSome then
          PPStep.next { st with errs := st.errs + 1 }
        else
          PPStep.next
            { st with macros := aset st.macros e1 (' ' :: (strip_comments e2 ++ [' '])) }
    | _ => PPStep.next { st with errs := st.errs + 1 }
  else if ("include".toList).isPrefixOf line then
    match parseInclude line with
    | some fname =>
        if st.in_include then PPStep.next { st with errs := st.errs + 1 }
        else
          match lookupAL fs fname with
          | none => PPStep.fail
          | some content =>
              PPStep.next
                { st with lines := ['@'] :: (splitlines content ++ (['@'] :: st.lines)) }
    | none => PPStep.next { st with errs := st.errs + 1 }
  else PPStep.next st

/-- The line-processing half of one iteration of the preproc.py
`for line in lines` loop: `st1` is the state after the line was popped and
the `@`-marker toggles applied.  A `#` directive emits a blank line into
the output and is handled by `ppHash`; any other line is macro-replaced
into the output. -/
def ppBody (fs : List (List Char × List Char)) (st1 : PPState) (line : List Char) :
    PPStep :=
  if (['#']).isPrefixOf line then
    ppHash fs { st1 with out := st1.out ++ ['\n'] } (pyStrip (line.drop 1))
  else
    match replace line st1.macros with
    | none => PPStep.fail
    | some r => PPStep.next { st1 with out := st1.out ++ r }

/-- One iteration of the preproc.py loop: `Includer.__next__` pops the line
and toggles `in_include` on an `@` marker; the body toggles the counting
flag on `@` and counts newlines, then processes the line. -/
def ppStep (fs : List (List Char × List Char)) (st : PPState) : PPStep :=
  match st.lines with
  | [] => PPStep.done st.out
  | line :: rest =>
      ppBody fs
        { lines := rest, macros := st.macros, out := st.out,
          curline := if (if line = ['@'] then !st.countlines else st.countlines)
                     then st.curline + countNL line else st.curline,
          countlines := if line = ['@'] then !st.countlines else st.countlines,
          in_include := if line = ['@'] then !st.in_include else st.in_include,
          errs := st.errs }
        line

def ppLoop (fs : List (List Char × List Char)) : Nat → PPState → Option (List Char)
  | 0, _ => none
  | fuel + 1, st =>
      match ppStep fs st with
      | PPStep.done out => some out
      | PPStep.fail => none
      | PPStep.next st' => ppLoop fs fuel st'

/-- preproc.py `preproc(source)`.  `fs` maps include file names to their
contents (the filesystem the Python code reads); `fuel` bounds the number
of loop iterations (`none` on exhaustion).  On the empty string the source
evaluates `source[0]` and raises IndexError; a source whose first character
is not `#` is returned untouched. -/
def preproc (fs : List (List Char × List Char)) (fuel : Nat) (source : List Char) :
    Option (List Char) :=
  match source with
  | [] => none
  | c :: _ =>
      if c = '#' then
        ppLoop fs fuel
          { lines := splitlines source, macros := [], out := [], curline := 0,
            countlines := true, in_include := false, errs := 0 }
      else some source

end Pp

/-! ## linker.py -/

namespace Lk

/-- Bit test `flags & 2^k != 0`, written arithmetically (division and
remainder) so that it computes by kernel reduction; equal to the masking
the source does with the `IntFlag` constants. -/
def bit (k : Nat) (flags : Nat) : Bool := flags / 2 ^ k % 2 == 1

/-- The segment part `flags & SymFlag.SEG` (low two bits,
text = 0 / data = 1 / bss = 2). -/
def segOf (flags : Nat) : Nat := flags % 4

/-- linker.py `Symbol`: flags (bit 2 = EXTERN is unused here; bit 3 =
EXPORT, bit 4 = COMMON, low two bits = segment), name, 16-bit value
(size request for a common symbol). -/
structure Symbol where
  flags : Nat
  name : String
  value : Int
deriving DecidableEq, Repr

/-- linker.py `Symbol.export`. -/
def isExport (s : Symbol) : Bool := bit 3 s.flags

/-- linker.py `Symbol.common`. -/
def isCommon (s : Symbol) : Bool := bit 4 s.flags

/-- linker.py `Reference`: RefFlag bit 0 = BYTE, 1 = HI, 2 = SYMBOL,
3 = HILO, 4 = ALWAYS_SET. -/
structure Reference where
  flags : Nat
  name : String
  con : Int
deriving DecidableEq, Repr

/-- linker.py `Reference.__len__`: 1 byte if BYTE is set, else 2. -/
def Reference.len (r : Reference) : Nat := if bit 0 r.flags then 1 else 2

/-- One element of a segment stream: a literal byte run or a relocation
reference. -/
inductive Elem where
  | bs (data : List Nat)
  | ref (r : Reference)
deriving DecidableEq, Repr

/-- `len(elem)` over a segment element. -/
def Elem.len : Elem → Nat
  | .bs d => d.length
  | .ref r => r.len

/-- linker.py `Module.seglen`. -/
def seglen (seg : List Elem) : Nat := (seg.map Elem.len).sum

/-- linker.py `Module`: two encoded segments, a symbol table keyed by
name, and the bss length. -/
structure Module where
  text : List Elem
  data : List Elem
  symtab : List (String × Symbol)
  bss_len : Nat
deriving DecidableEq, Repr

/-! ### Serialisation (`Module.__bytes__` and friends) -/

/-- linker.py `bytename(name)`: the source computes the padded encoding but
never returns it —

    def bytename(name: str) -> bytes:
        name = (name + chr(0) * NAMELEN)[:NAMELEN].encode(ascii)

(no `return`), so the function always returns `None`; `struct.pack` then
raises on the `None` argument.  Hence the constant `none`. -/
def bytename (_name : String) : Option (List Nat) := none

/-- The encoding `bytename`'s docstring promises and the reader
`Module._inname` expects: the first 8 ASCII bytes of the name, NUL-padded
to 8 bytes (failure on a non-ASCII character). -/
def bytenameSpec (name : String) : Option (List Nat) :=
  let cs := (name.toList.map Char.toNat).take 8
  if cs.all (· < 128) then some (cs ++ List.replicate (8 - cs.length) 0) else none

/-- `struct.pack` of a `<H`: fails outside the 16-bit range. -/
def u16le (v : Int) : Option (List Nat) :=
  if 0 ≤ v ∧ v < 65536 then some [v.toNat % 256, v.toNat / 256] else none

/-- `struct.pack` of a `<B`. -/
def u8 (v : Nat) : Option (List Nat) := if v < 256 then some [v] else none

/-- `struct.pack` of a `<b` (signed byte, two's complement). -/
def sbyte (v : Int) : Option (List Nat) :=
  if -128 ≤ v ∧ v < 128 then some [(v % 256).toNat] else none

/-- `flags | RefFlag.ALWAYS_SET` (bit 4), arithmetically. -/
def orAlways (flags : Nat) : Nat := if bit 4 flags then flags else flags + 16

/-- linker.py `Symbol.__bytes__`: `struct.pack` over `bytename(name)`,
which is always `None`, so serialising any symbol raises. -/
def symbolBytes (s : Symbol) : Option (List Nat) := do
  let nb ← bytename s.name
  let vb ← u16le s.value
  let fb ← u8 s.flags
  pure (nb ++ vb ++ fb)

/-- linker.py `Reference.__bytes__`: negative flag byte, then the name and
the constant — also always raises through `bytename`.  Note the source
writes the name and constant unconditionally, not only for SYMBOL
references. -/
def referenceBytes (r : Reference) : Option (List Nat) := do
  let fb ← sbyte (-(Int.ofNat (orAlways r.flags)))
  let nb ← bytename r.name
  let cb ← u16le r.con
  pure (fb ++ nb ++ cb)

/-- `bytes(elem)` for a segment element: a literal run serialises to just
its own bytes — the source emits no length prefix. -/
def elemBytes : Elem → Option (List Nat)
  | .bs d => some d
  | .ref r => referenceBytes r

/-- linker.py `Module.__bytes__`: header of the three lengths, the two
segment streams each followed by a zero byte, the symbol table entries,
and a final zero byte. -/
def moduleBytes (m : Module) : Option (List Nat) := do
  let ht ← u16le (Int.ofNat (seglen m.text))
  let hd ← u16le (Int.ofNat (seglen m.data))
  let hb ← u16le (Int.ofNat m.bss_len)
  let tb ← mapOpt elemBytes m.text
  let db ← mapOpt elemBytes m.data
  let sb ← mapOpt (fun p => symbolBytes p.2) m.symtab
  pure (ht ++ hd ++ hb ++ tb.flatten ++ [0] ++ db.flatten ++ [0] ++ sb.flatten ++ [0])

/-- Modelled from the claim's description of the wire format (which is
also what the reader `Module.from_bytes` parses): each literal run is
preceded by its positive signed-byte length, a reference is a negative
signed byte of magnitude `flags | ALWAYS_SET` followed by the 8-byte
NUL-padded name only when SYMBOL is set, then the 16-bit constant. -/
def specElemBytes : Elem → Option (List Nat)
  | .bs d =>
      if 1 ≤ d.length ∧ d.length ≤ 127 then some (d.length :: d) else none
  | .ref r => do
      let fb ← sbyte (-(Int.ofNat (orAlways r.flags)))
      let nb ← if bit 2 r.flags then bytenameSpec r.name else pure []
      let cb ← u16le r.con
      pure (fb ++ nb ++ cb)

/-- Modelled from the claim: the serialised module as the claim (and the
reader) describe it. -/
def specModuleBytes (m : Module) : Option (List Nat) := do
  let ht ← u16le (Int.ofNat (seglen m.text))
  let hd ← u16le (Int.ofNat (seglen m.data))
  let hb ← u16le (Int.ofNat m.bss_len)
  let tb ← mapOpt specElemBytes m.text
  let db ← mapOpt specElemBytes m.data
  let sb ← mapOpt
      (fun p => do
        let nb ← bytenameSpec p.2.name
        let vb ← u16le p.2.value
        let fb ← u8 p.2.flags
        pure (nb ++ vb ++ fb))
      m.symtab
  pure (ht ++ hd ++ hb ++ tb.flatten ++ [0] ++ db.flatten ++ [0] ++ sb.flatten ++ [0])

/-! ### Symbol resolution (`Linker.buildsyms`) -/

/-- `SEGS[seg]` sizes: the byte length a module contributes to segment
`segnum`. -/
def segSize (segnum : Nat) (m : Module) : Nat :=
  if segnum == 0 then seglen m.text
  else if segnum == 1 then seglen m.data
  else m.bss_len

/-- The inner `for symbol in module.symtab.values()` of `buildsyms` for
one segment pass: keep the symbols of this segment, shifting non-common
values by the running offset (`newsym.value += offset`), keyed by name as
in the `{sym.name: sym for sym in modsym}` comprehension. -/
def segFilterMod (segnum : Nat) (off : Int) (m : Module) : List (String × Symbol) :=
  m.symtab.filterMap (fun p =>
    if segOf p.2.flags != segnum then none
    else if isCommon p.2 then some (p.2.name, p.2)
    else some (p.2.name, { p.2 with value := p.2.value + off }))

/-- One segment pass of `buildsyms` over all modules, threading the
running offset into each module's per-module table (`modsyms[i].update`).
Returns the offset after the pass and the updated tables. -/
def segPass (segnum : Nat) : Int → List (Module × List (String × Symbol)) →
    Int × List (Module × List (String × Symbol))
  | off, [] => (off, [])
  | off, (m, tab) :: rest =>
      let r := segPass segnum (off + Int.ofNat (segSize segnum m)) rest
      (r.1, (m, updateAL tab (segFilterMod segnum off m)) :: r.2)

/-- The three chained segment passes of `buildsyms`
(`for seg in ('text', 'data', 'bss')`), from offset 0. -/
def phaseA (mods : List Module) : Int × List (List (String × Symbol)) :=
  let s0 := segPass 0 0 (mods.map (fun m => (m, [])))
  let s1 := segPass 1 s0.1 s0.2
  let s2 := segPass 2 s1.1 s1.2
  (s2.1, s2.2.map Prod.snd)

/-- The export loop of `buildsyms`: collect exported non-common symbols of
every per-module table into the global symbol table, later tables
overwriting earlier ones.  The source raises no error on a duplicate. -/
def exportPass (tabs : List (List (String × Symbol))) : List (String × Symbol) :=
  tabs.foldl
    (fun acc tab =>
      tab.foldl
        (fun acc2 p =>
          if isExport p.2 && !isCommon p.2 then aset acc2 p.2.name p.2 else acc2)
        acc)
    []

/-- One step of the `commons` dict accumulation in `Linker._commons`: a
common symbol either registers its size or raises an existing entry to the
larger of the two. -/
def cstep (acc : List (String × Int)) (p : String × Symbol) : List (String × Int) :=
  if isCommon p.2 then
    aset acc p.2.name
      (match lookupAL acc p.2.name with
       | some old => if old > p.2.value then old else p.2.value
       | none => p.2.value)
  else acc

/-- The `commons` dict of `Linker._commons`: per name, the largest size
(`value`) requested by any common symbol in any per-module table, in first
occurrence order. -/
def commonsDict (tabs : List (List (String × Symbol))) : List (String × Int) :=
  tabs.foldl (fun acc tab => tab.foldl cstep acc) []

/-- The `resolved` dict of `_commons`: common names that the global table
already defines (non-common, by construction of `exportPass`; the source
asserts this). -/
def resolvedPairs (symtab0 : List (String × Symbol)) (commons : List (String × Int)) :
    List (String × Symbol) :=
  commons.filterMap (fun p => (lookupAL symtab0 p.1).map (fun s => (s.name, s)))

/-- The common names left after deleting the resolved ones. -/
def remainingCommons (symtab0 : List (String × Symbol))
    (commons : List (String × Int)) : List (String × Int) :=
  commons.filter (fun p => (lookupAL symtab0 p.1).isNone)

/-- The allocation loop of `_commons`: each remaining common gets an
`EXPORT|BSS` symbol at the running offset, which then advances by its
size.  Returns the final offset (`common_bss`) and the allocated symbols
in order. -/
def allocCommons : Int → List (String × Int) → Int × List Symbol
  | off, [] => (off, [])
  | off, (n, size) :: rest =>
      let r := allocCommons (off + size) rest
      (r.1, { flags := 10, name := n, value := off } :: r.2)

/-- The result of `Linker.buildsyms`. -/
structure LinkState where
  symtab : List (String × Symbol)
  modsyms : List (List (String × Symbol))
  common_bss : Int
  commons : List Symbol
deriving Repr

/-- linker.py `Linker._commons(offset)`: collect the per-name maximum
sizes, drop names the global table already defines (re-entering those
definitions at the end, which leaves their bindings unchanged), allocate
the rest at the running end of bss, and delete every common entry from the
per-module tables. -/
def phaseC (offset : Int) (tabs : List (List (String × Symbol)))
    (symtab0 : List (String × Symbol)) : LinkState :=
  let cdict := commonsDict tabs
  let resolved := resolvedPairs symtab0 cdict
  let remaining := remainingCommons symtab0 cdict
  let alloc := allocCommons offset remaining
  let symtab1 := alloc.2.foldl (fun t s => aset t s.name s) symtab0
  let tabs' := tabs.map (fun tab => tab.filter (fun p => !isCommon p.2))
  { symtab := updateAL symtab1 resolved, modsyms := tabs',
    common_bss := alloc.1, commons := alloc.2 }

/-- linker.py `Linker.buildsyms`. -/
def buildsyms (mods : List Module) : LinkState :=
  phaseC (phaseA mods).1 (phaseA mods).2 (exportPass (phaseA mods).2)

/-! ### Relocation and linking (`Reference.resolve`, `Linker.link`) -/

/-- The `for symtab in symtabs` search of `Reference.resolve`: first table
containing the name wins. -/
def findTab (tabs : List (List (String × Symbol))) (n : String) : Option Symbol :=
  match tabs with
  | [] => none
  | t :: rest =>
      match lookupAL t n with
      | some s => some s
      | none => findTab rest n

/-- linker.py `Reference.resolve(offset, *symtabs)`: compute the 16-bit
value (symbol value + constant, or offset + constant), then select bytes
per the HILO/HI and BYTE flags.  Raises (here `.error`) for an undefined
symbol or a common one. -/
def resolveRef (tabs : List (List (String × Symbol))) (off : Int) (r : Reference) :
    Except String (List Nat) := do
  let dv ←
    if bit 2 r.flags then
      match findTab tabs r.name with
      | some s =>
          if isCommon s then Except.error "illegal common"
          else Except.ok (r.con + s.value)
      | none => Except.error "undefined symbol"
    else Except.ok (off + r.con)
  let w := word dv
  let bytes2 : List Nat :=
    if bit 3 r.flags then
      if bit 1 r.flags then [w / 256, 0] else [w % 256, 0]
    else [w % 256, w / 256]
  pure (if bit 0 r.flags then [bytes2.headD 0] else bytes2)

/-- linker.py `Linker.resolve(offset, modsym, seg)`: copy byte runs, fix
up references at their absolute position (`offset + len(out)`). -/
def resolveSeg (tabs : List (List (String × Symbol))) :
    Int → List Elem → Except String (List Nat)
  | _, [] => Except.ok []
  | off, Elem.bs d :: rest =>
      (resolveSeg tabs (off + Int.ofNat d.length) rest).map (d ++ ·)
  | off, Elem.ref r :: rest => do
      let b ← resolveRef tabs off r
      let bs ← resolveSeg tabs (off + Int.ofNat b.length) rest
      pure (b ++ bs)

/-- The `for i, module` half of `Linker.link` for one segment: each
module's stream is resolved against its own table plus the global one, at
the current output position. -/
def linkPass (symtab : List (String × Symbol)) (getseg : Module → List Elem) :
    Int → List (Module × List (String × Symbol)) → Except String (List Nat)
  | _, [] => Except.ok []
  | off, (m, tab) :: rest => do
      let b ← resolveSeg [tab, symtab] off (getseg m)
      let bs ← linkPass symtab getseg (off + Int.ofNat b.length) rest
      pure (b ++ bs)

/-- linker.py `Linker.link`: build the symbol tables, resolve all text
segments then all data segments, and append the zero-filled bss. -/
def link (mods : List Module) : Except String (List Nat) := do
  let st := buildsyms mods
  let pairs := mods.zip st.modsyms
  let t ← linkPass st.symtab (fun m => m.text) 0 pairs
  let d ← linkPass st.symtab (fun m => m.data) (Int.ofNat t.length) pairs
  pure (t ++ d ++ List.replicate (mods.map (fun m => m.bss_len)).sum 0)

/-- Does a reference resolve (its symbol, if any, defined and
non-common)?  `resolveRef` succeeds exactly under this condition. -/
def refResolves (tabs : List (List (String × Symbol))) (r : Reference) : Bool :=
  if bit 2 r.flags then
    match findTab tabs r.name with
    | some s => !isCommon s
    | none => false
  else true

/-- Pointwise form of the resolution precondition over segment elements. -/
def elemResolves (tabs : List (List (String × Symbol))) : Elem → Bool
  | .bs _ => true
  | .ref r => refResolves tabs r

/-- Well-formedness of a module's symbol table, guaranteed by the reader
`Module._insyms`: each entry is keyed by its symbol's name (`_insyms`
stores `symtab[symbol.name] = symbol` and raises on a duplicate key), and
the segment bits denote a real segment (0, 1 or 2 — the value 3 is the
`SEG` mask, not a segment). -/
def wfMod (m : Module) : Prop :=
  (∀ p ∈ m.symtab, p.2.name = p.1 ∧ segOf p.2.flags ≠ 3) ∧
  (m.symtab.map Prod.fst).Nodup

def wfMods (mods : List Module) : Prop := ∀ m ∈ mods, wfMod m

/-- The sizes the common symbols named `n` of a pair list request. -/
def sizesOf (l : List (String × Symbol)) (n : String) : List Int :=
  l.filterMap
    (fun p => if isCommon p.2 && p.2.name == n then some p.2.value else none)

/-- Some module requests `n` as a common symbol of size `v`. -/
def requestsCommon (mods : List Module) (n : String) (v : Int) : Prop :=
  ∃ m ∈ mods, ∃ p ∈ m.symtab, isCommon p.2 = true ∧ p.2.name = n ∧ p.2.value = v

/-- Some module exports `n` as a non-common symbol. -/
def exportsNonCommon (mods : List Module) (n : String) : Prop :=
  ∃ m ∈ mods, ∃ p ∈ m.symtab,
    isExport p.2 = true ∧ isCommon p.2 = false ∧ p.2.name = n

/-- `v` is the largest size requested for `n` by any module's common
symbol (and is requested by one of them). -/
def isMaxRequested (mods : List Module) (n : String) (v : Int) : Prop :=
  requestsCommon mods n v ∧ ∀ u, requestsCommon mods n u → u ≤ v

/-- The allocated common symbols sit consecutively from `off`, each
advancing the running offset by the maximum size requested for its name. -/
def commonsChain (mods : List Module) : Int → List Symbol → Prop
  | _, [] => True
  | off, s :: rest =>
      s.value = off ∧
      ∃ v, isMaxRequested mods s.name v ∧ commonsChain mods (off + v) rest

/-- A concrete well-formed module list exercising the export path: one
module exporting the non-common symbol `a` from its text segment. -/
def c3mods : List Module :=
  [{ text := [Elem.bs [1]], data := [], symtab := [("a", ⟨8, "a", 0⟩)],
     bss_len := 0 }]

/-- A concrete well-formed module list exercising the commons path: both
modules request the common symbol `c` (sizes 4 and 2), the second also
exports the non-common symbol `d`. -/
def c4mods : List Module :=
  [{ text := [], data := [], symtab := [("c", ⟨24, "c", 4⟩)], bss_len := 0 },
   { text := [Elem.bs [7]], data := [],
     symtab := [("c", ⟨24, "c", 2⟩), ("d", ⟨8, "d", 0⟩)], bss_len := 0 }]

end Lk

namespace Asm

/-- asm80.py `Symbol`: a symbol-table entry of the assembler. -/
structure ASymbol where
  name : String
  value : Int
  segment : String
  label : Bool := false
  exported : Bool := false
  common : Bool := false
deriving Repr, DecidableEq

/-- asm80.py `ArgMode`. -/
inductive AMode where
  | norm
  | lo
  | hi
deriving Repr, DecidableEq

/-- asm80.py `Arg`: an expression argument. -/
structure Arg where
  con : Int := 0
  symbol : Option String := none
  mode : AMode := .norm
deriving Repr, DecidableEq

/-- The assembler state touched by `Assembler.statement`: the remaining
source text (`self.source[self.index:]`), the module's symbol table
(insertion-ordered dict), the current segment, the current program
counter (`len(self.module)`, only carried here: the modelled arms add no
segment data), and the error count. -/
structure St where
  text : List Char
  symtab : List (String × ASymbol)
  curseg : String
  pc : Nat
  errcount : Nat
deriving Repr

/-- A Python exception escaping `statement`. -/
inductive PyErr where
  | unboundLocal
deriving Repr, DecidableEq

/-- Python `[^\S\n]`: whitespace other than newline. -/
def wsNoNl (c : Char) : Bool :=
  c.toNat == 32 || c.toNat == 9 || c.toNat == 11 || c.toNat == 12 || c.toNat == 13

/-- Python `\s`. -/
def pyWsA (c : Char) : Bool :=
  c.toNat == 32 || c.toNat == 9 || c.toNat == 10 || c.toNat == 11
    || c.toNat == 12 || c.toNat == 13

/-- asm80.py `Assembler.skipws`, the regex
`(([^\S\n]+)|(;[^\n]*))+`: repeatedly drop non-newline whitespace and
`;` comments.  Fuel-structural (each step consumes a character) so the
kernel can evaluate it. -/
def skipwsAux : Nat → List Char → List Char
  | 0, t => t
  | fuel + 1, t =>
      match t with
      | [] => []
      | c :: rest =>
          if wsNoNl c then skipwsAux fuel rest
          else if c.toNat == 59 then
            skipwsAux fuel (rest.dropWhile (fun d => !(d.toNat == 10)))
          else t

def skipws (t : List Char) : List Char := skipwsAux t.length t

/-- asm80.py `Assembler.skipws_nl`, the regex `((;[^\n]*\n)|([\s]+))*`:
also drops newlines, and a comment only together with its terminating
newline. -/
def skipwsNlAux : Nat → List Char → List Char
  | 0, t => t
  | fuel + 1, t =>
      match t with
      | [] => []
      | c :: rest =>
          if pyWsA c then skipwsNlAux fuel rest
          else if c.toNat == 59 then
            match rest.dropWhile (fun d => !(d.toNat == 10)) with
            | _ :: r2 => skipwsNlAux fuel r2
            | [] => t
          else t

def skipwsNl (t : List Char) : List Char := skipwsNlAux t.length t

/-- asm80.py `Assembler.nextline`, the regex `[^\n]*\n`: skip to just
past the next newline; if there is none the regex fails and nothing is
skipped. -/
def nextline (t : List Char) : List Char :=
  match t.dropWhile (fun d => !(d.toNat == 10)) with
  | _ :: r => r
  | [] => t

def isDigitC (c : Char) : Bool := 48 ≤ c.toNat && c.toNat ≤ 57

def isHexC (c : Char) : Bool :=
  isDigitC c || (65 ≤ c.toNat && c.toNat ≤ 70) || (97 ≤ c.toNat && c.toNat ≤ 102)

def isNameStartC (c : Char) : Bool :=
  c.toNat == 46 || c.toNat == 95 || (65 ≤ c.toNat && c.toNat ≤ 90)
    || (97 ≤ c.toNat && c.toNat ≤ 122)

def isNameContC (c : Char) : Bool := isNameStartC c || isDigitC c

/-- Split off the longest prefix satisfying `p` (Python regex `+`/`*`
on a character class). -/
def takeWhileC (p : Char → Bool) : List Char → List Char × List Char
  | [] => ([], [])
  | c :: rest =>
      if p c then
        let r := takeWhileC p rest
        (c :: r.1, r.2)
      else ([], c :: rest)

def digitsToNat : List Char → Nat → Nat
  | [], acc => acc
  | c :: rest, acc => digitsToNat rest (acc * 10 + (c.toNat - 48))

def hexToNat : List Char → Nat → Nat
  | [], acc => acc
  | c :: rest, acc =>
      hexToNat rest (acc * 16 +
        (if c.toNat ≤ 57 then c.toNat - 48
         else if c.toNat ≤ 70 then c.toNat - 55
         else c.toNat - 87))

/-- asm80.py `Assembler.atom` result: a 16-bit number or a name. -/
inductive Atom where
  | num (n : Int)
  | name (s : String)
deriving Repr, DecidableEq

/-- asm80.py `Assembler.atom`: skip whitespace, then parse `$hex`, a
decimal number (both through `word`), or a name
`[.a-zA-Z_][.a-zA-Z_0-9]*`; on failure the text stays at the
post-whitespace position. -/
def atomParse (t0 : List Char) : Option Atom × List Char :=
  let t := skipws t0
  match t with
  | [] => (none, [])
  | c :: rest =>
      if c.toNat == 36 then
        let h := takeWhileC isHexC rest
        if h.1.isEmpty then (none, t)
        else (some (.num (word (Int.ofNat (hexToNat h.1 0)))), h.2)
      else if isDigitC c then
        let d := takeWhileC isDigitC t
        (some (.num (word (Int.ofNat (digitsToNat d.1 0)))), d.2)
      else if isNameStartC c then
        let nm := takeWhileC isNameContC t
        (some (.name (String.mk nm.1)), nm.2)
      else (none, t)

/-- Match one literal against the head of the text. -/
def litHere : List Char → List Char → Option (List Char)
  | [], t => some t
  | _, [] => none
  | l :: ls, c :: cs => if l == c then litHere ls cs else none

/-- The literal loop of `Assembler.matchlit`: first match wins. -/
def matchlitGo : List (List Char) → List Char → Option (List Char) × List Char
  | [], t => (none, t)
  | l :: ls, t =>
      match litHere l t with
      | some rest => (some l, rest)
      | none => matchlitGo ls t

/-- asm80.py `Assembler.matchlit`: skip whitespace, then try each
literal in order; even on failure the whitespace stays skipped. -/
def matchlit (lits : List (List Char)) (t0 : List Char) :
    Option (List Char) × List Char :=
  matchlitGo lits (skipws t0)

/-- asm80.py `Assembler.addsym`: diagnose a redefinition, then store the
symbol under its name unconditionally. -/
def addsym (st : St) (s : ASymbol) : St :=
  if (lookupAL st.symtab s.name).isSome then
    { st with errcount := st.errcount + 1, symtab := aset st.symtab s.name s }
  else { st with symtab := aset st.symtab s.name s }

/-- asm80.py `Assembler.primary`. -/
def primary (st : St) : Arg × St :=
  match atomParse st.text with
  | (none, t) =>
      (⟨0, none, .norm⟩, { st with text := t, errcount := st.errcount + 1 })
  | (some (.name s), t) => (⟨0, some s, .norm⟩, { st with text := t })
  | (some (.num n), t) => (⟨word n, none, .norm⟩, { st with text := t })

/-- The `while oper := self.matchlit('+', '-')` loop of
`Assembler.expr`; fuel-structural, each iteration consumes the
operator character. -/
def exprLoop : Nat → Arg → St → Arg × St
  | 0, left, st => (left, st)
  | fuel + 1, left, st =>
      match matchlit [[Char.ofNat 43], [Char.ofNat 45]] st.text with
      | (none, t) => (left, { st with text := t })
      | (some l, t) =>
          let pr := primary { st with text := t }
          let right := pr.1
          let st2 := pr.2
          if l == [Char.ofNat 45] then
            match right.symbol with
            | some _ => exprLoop fuel left { st2 with errcount := st2.errcount + 1 }
            | none =>
                exprLoop fuel { left with con := word (left.con - right.con) } st2
          else
            match right.symbol with
            | some _ =>
                match left.symbol with
                | some _ =>
                    exprLoop fuel right { st2 with errcount := st2.errcount + 1 }
                | none =>
                    exprLoop fuel { right with con := word (right.con + left.con) } st2
            | none =>
                exprLoop fuel { left with con := word (left.con + right.con) } st2

/-- asm80.py `Assembler.expr`: an optional `<`/`>` mode prefix, a
primary, then `+`/`-` chains (a symbol may appear on at most one side;
`word` wraps every fold). -/
def expr (st : St) : Arg × St :=
  match matchlit [[Char.ofNat 60]] st.text with
  | (some _, t) =>
      let pr := primary { st with text := t }
      let r := exprLoop pr.2.text.length pr.1 pr.2
      ({ r.1 with mode := .lo }, r.2)
  | (none, t) =>
      match matchlit [[Char.ofNat 62]] t with
      | (some _, t2) =>
          let pr := primary { st with text := t2 }
          let r := exprLoop pr.2.text.length pr.1 pr.2
          ({ r.1 with mode := .hi }, r.2)
      | (none, t2) =>
          let pr := primary { st with text := t2 }
          let r := exprLoop pr.2.text.length pr.1 pr.2
          ({ r.1 with mode := .norm }, r.2)

/-- The outcome of one `Assembler.statement` call. -/
inductive StmtRes where
  | done (st : St)
  | opcodeArm (st : St) (cmd : String)
  | pyerror (e : PyErr)
deriving Repr

/-- asm80.py `Assembler.statement`, modelled through the empty, label
and `=`/`.equ` arms; a statement that reaches the final `else` (opcode
and pseudo-op dispatch) is returned as `.opcodeArm` with the state at
the dispatch point.  In the `=`/`.equ` arm the source constructs a
`Symbol` but never calls `addsym`, so the symbol table is left
untouched; and when the expression names a predefined symbol, the test
`self.symtab[symbol].common` reads the local variable `symbol` before
any assignment to it, which raises `UnboundLocalError`
(`.pyerror .unboundLocal`). -/
def statement (st0 : St) : StmtRes :=
  let t := skipwsNl st0.text
  if t.isEmpty then .done { st0 with text := t }
  else
    match atomParse t with
    | (none, t2) =>
        .done { st0 with text := nextline t2, errcount := st0.errcount + 1 }
    | (some (.num _), t2) =>
        .done { st0 with text := nextline t2, errcount := st0.errcount + 1 }
    | (some (.name a), t2) =>
        match matchlit [[Char.ofNat 58]] t2 with
        | (some _, t3) =>
            .done (addsym { st0 with text := t3 }
              ⟨a, Int.ofNat st0.pc, st0.curseg, true, false, false⟩)
        | (none, t3) =>
            match matchlit [[Char.ofNat 61],
                [Char.ofNat 46, Char.ofNat 101, Char.ofNat 113, Char.ofNat 117]]
                t3 with
            | (some _, t4) =>
                let r := expr { st0 with text := t4 }
                let arg := r.1
                let st2 := r.2
                match arg.symbol with
                | some s =>
                    if (lookupAL st2.symtab s).isNone then
                      .done { st2 with errcount := st2.errcount + 1 }
                    else .pyerror .unboundLocal
                | none => .done st2
            | (none, t4) => .opcodeArm { st0 with text := t4 } a

/-- The `STARTSYM` registers preloaded by `Assembler.__init__` (each via
`addsym`, into the fresh `.text` segment, `label=False`). -/
def startsyms : List (String × ASymbol) :=
  [("b", ⟨"b", 0, ".text", false, false, false⟩),
   ("c", ⟨"c", 1, ".text", false, false, false⟩),
   ("d", ⟨"d", 2, ".text", false, false, false⟩),
   ("e", ⟨"e", 3, ".text", false, false, false⟩),
   ("h", ⟨"h", 4, ".text", false, false, false⟩),
   ("l", ⟨"l", 5, ".text", false, false, false⟩),
   ("m", ⟨"m", 6, ".text", false, false, false⟩),
   ("a", ⟨"a", 7, ".text", false, false, false⟩),
   ("sp", ⟨"sp", 6, ".text", false, false, false⟩),
   ("psw", ⟨"psw", 6, ".text", false, false, false⟩)]

/-- A fresh `Assembler(source)` state. -/
def initState (source : String) : St :=
  { text := source.toList, symtab := startsyms, curseg := ".text",
    pc := 0, errcount := 0 }

end Asm

/-!
# Theorems

All definitions above embed the sources; everything below is proved about
them.  Claim-numbered theorems (`cN_...`) each settle one claim of the
specification review.
-/

/-- For a negative argument `word` returns the magnitude reduced mod 2^16,
not the two's-complement (mod 2^16) value that 16-bit wrap-around would
require. -/
theorem word_neg (i : Int) (h : i < 0) : word i = ((-i) % 65536).toNat := by
  unfold word and16 xor16
  rw [if_pos h]
  congr 1
  omega

/-- For a nonnegative argument `word` is plain reduction mod 2^16. -/
theorem word_nonneg (i : Int) (h : 0 ≤ i) : word i = (i % 65536).toNat := by
  unfold word and16
  rw [if_neg (by omega)]

namespace Expr

/-- C1: the claim says constant folding returns the exact arithmetic result
of the operator reduced modulo 2^16 (wrap-around).  It does not: `util.word`
negates a negative argument before masking, so folding `neg` over the
constant 1 yields 1 where -1 mod 2^16 = 65535, and folding `sub` over the
constants 0 and 1 also yields 1 instead of 65535. -/
theorem c1_confold_not_mod_2_16 :
    confold (Node.mk "neg" 7 [Int6] [conLeaf 7 1] none) = some (conLeaf 7 1)
    ∧ confold (Node.mk "sub" 7 [Int6] [conLeaf 7 0, conLeaf 7 1] none)
        = some (conLeaf 7 1)
    ∧ Int.emod (-1) 65536 = 65535
    ∧ (1 : Int) ≠ 65535 := by
  exact ⟨rfl, rfl, by decide, by decide⟩

/-- C10 counterexample: a `div` node whose two children are `con` leaves
with a nonzero divisor constant (65536) on which the fold nevertheless
fails: `word 65536 = 0` and the division raises ZeroDivisionError. -/
theorem c10_nonzero_divisor_fails :
    (65536 : Int) ≠ 0
    ∧ confold (Node.mk "div" 7 [Int6] [conLeaf 7 1, conLeaf 7 65536] none) = none := by
  exact ⟨by decide, rfl⟩

/-- C10 amended: for a `div` or `mod` node over two `con` leaves the fold
yields a `con` leaf exactly when the divisor's 16-bit `word` value is
nonzero; when that value is 0 the fold produces no node and no diagnostic
(the unguarded division raises). -/
theorem c10_div_mod_zero_guard (lbl : String) (ln la lb a b : Int)
    (ts : List TypeElem) (hl : lbl = "div" ∨ lbl = "mod") :
    (word b ≠ 0 →
      ∃ v, confold (Node.mk lbl ln ts [conLeaf la a, conLeaf lb b] none)
        = some (conLeaf ln v))
    ∧ (word b = 0 →
      confold (Node.mk lbl ln ts [conLeaf la a, conLeaf lb b] none) = none) := by
  constructor
  · intro hb
    rcases hl with h | h <;> subst h <;>
      simp [confold, conLeaf, Node.children, Node.label, Node.value, Node.linenum,
            conval, mapOpt, hb]
  · intro hb
    rcases hl with h | h <;> subst h <;>
      simp [confold, conLeaf, Node.children, Node.label, Node.value, Node.linenum,
            conval, mapOpt, hb]

/-- C10 witness: the amended theorem applied at concrete inputs
(7 div 2 folds; 7 div 0 fails). -/
theorem c10_div_mod_zero_guard_witness :
    (∃ v, confold (Node.mk "div" 1 [Int6] [conLeaf 1 7, conLeaf 1 2] none)
        = some (conLeaf 1 v))
    ∧ confold (Node.mk "div" 1 [Int6] [conLeaf 1 7, conLeaf 1 0] none) = none := by
  exact ⟨(c10_div_mod_zero_guard "div" 1 1 1 7 2 [Int6] (Or.inl rfl)).1 (by decide),
         (c10_div_mod_zero_guard "div" 1 1 1 7 0 [Int6] (Or.inl rfl)).2 (by decide)⟩

/-- C6: the source guards the diagnostic with
`floating(*node.children, node) and not opinfo.yesflt`; `opinfo.yesflt` is a
nonempty mapping, so `not opinfo.yesflt` is always false and the diagnostic
"illegal operation for floating type" is never issued.  Here `and` (a
non-floating-capable operator, absent from `yesflt`) is built over a
floating operand, and the diagnostic list comes back empty. -/
theorem c6_floating_diagnostic_never_issued :
    floatingAny [Node.mk "name" 1 [Double6] [] (some (Value.sym "d"))] = some true
    ∧ (yesflt.map Prod.fst).contains "and" = false
    ∧ yesflt.isEmpty = false
    ∧ ∃ n, build 10 1 (some "and")
        [Node.mk "name" 1 [Double6] [] (some (Value.sym "d")), conLeaf 1 1]
        = some (n, []) := by
  exact ⟨rfl, rfl, rfl, ⟨_, rfl⟩⟩

/-- C7: the inc/dec normalisation match arm in `build` reads
`case 'postinc' | 'preinc' | 'postdec' | 'preinc':` — `'preinc'` twice and
no `'predec'` — so a `predec` node keeps its single child instead of
gaining the constant second child; and for a pointer lvalue the added
constant is `tysize` of the whole pointer type string (always 2), not
`sizeof` of the pointee: `postinc` of a char pointer gets constant 2
although `sizeof(char) = 1`. -/
theorem c7_incdec_normalisation_divergence :
    (∃ n, build 10 1 (some "predec") [Node.mk "name" 1 [Int6] [] (some (Value.sym "x"))]
        = some (n, []) ∧ n.children.length = 1)
    ∧ (∃ n, build 10 1 (some "postinc")
          [Node.mk "name" 1 [Point6, Char6] [] (some (Value.sym "p"))]
        = some (n, []) ∧
        n.children.map Node.value = [some (Value.sym "p"), some (Value.int 2)])
    ∧ tysize [Char6] = 1 := by
  refine ⟨⟨_, rfl, rfl⟩, ⟨_, rfl, rfl⟩, rfl⟩

end Expr

namespace Pp

theorem splitlinesAux_first (s acc : List Char) (h : acc ≠ []) :
    ∃ t ls, splitlinesAux s acc = (acc.reverse ++ t) :: ls := by
  induction s, acc using splitlinesAux.induct with
  | case1 acc ha => simp at ha; exact absurd ha h
  | case2 acc ha =>
      exact ⟨[], [], by simp [splitlinesAux, List.isEmpty_eq_false.mpr h]⟩
  | case3 rest acc ih => exact ⟨['\r', '\n'], _, by rw [splitlinesAux]⟩
  | case4 c rest acc hne hlb ih =>
      exact ⟨[c], _, by rw [splitlinesAux.eq_3 _ _ _ hne, if_pos hlb]⟩
  | case5 c rest acc hne hlb ih =>
      obtain ⟨t, ls, ht⟩ := ih (by simp)
      exact ⟨c :: t, ls, by rw [splitlinesAux.eq_3 _ _ _ hne, if_neg hlb, ht]; simp⟩

theorem splitlines_hash (s : List Char) :
    ∃ t ls, splitlines ('#' :: s) = ('#' :: t) :: ls := by
  unfold splitlines
  have hne : ∀ (r : List Char), '#' = '\r' → s = '\n' :: r → False := by
    intro r hc
    cases hc
  have h1 : splitlinesAux ('#' :: s) [] = splitlinesAux s ['#'] := by
    rw [splitlinesAux.eq_3 _ _ _ hne]
    simp [isLineBreak]
  rw [h1]
  obtain ⟨t, ls, ht⟩ := splitlinesAux_first s ['#'] (by simp)
  exact ⟨t, ls, by simpa using ht⟩

theorem ppHash_cases (fs : List (List Char × List Char)) (st : PPState)
    (line : List Char) :
    ppHash fs st line = PPStep.fail ∨
    ∃ st', ppHash fs st line = PPStep.next st' ∧ st'.out = st.out := by
  unfold ppHash
  repeat' split
  all_goals first
    | exact Or.inl rfl
    | exact Or.inr ⟨_, rfl, rfl⟩

theorem ppBody_cases (fs : List (List Char × List Char)) (st1 : PPState)
    (line : List Char) :
    ppBody fs st1 line = PPStep.fail ∨
    ∃ st' d, ppBody fs st1 line = PPStep.next st' ∧ st'.out = st1.out ++ d := by
  unfold ppBody
  split
  · rcases ppHash_cases fs { st1 with out := st1.out ++ ['\n'] }
        (pyStrip (line.drop 1)) with hf | ⟨st', hn, ho⟩
    · exact Or.inl hf
    · exact Or.inr ⟨st', ['\n'], hn, ho⟩
  · split
    · exact Or.inl rfl
    · exact Or.inr ⟨_, _, rfl, rfl⟩

theorem ppBody_hash (fs : List (List Char × List Char)) (st1 : PPState)
    (line : List Char) (h : (['#']).isPrefixOf line = true) :
    ppBody fs st1 line = PPStep.fail ∨
    ∃ st', ppBody fs st1 line = PPStep.next st' ∧ st'.out = st1.out ++ ['\n'] := by
  unfold ppBody
  rw [if_pos h]
  exact ppHash_cases fs _ _

theorem ppStep_cases (fs : List (List Char × List Char)) (st : PPState) :
    ppStep fs st = PPStep.done st.out ∨ ppStep fs st = PPStep.fail ∨
    ∃ st' d, ppStep fs st = PPStep.next st' ∧ st'.out = st.out ++ d := by
  rcases hl : st.lines with _ | ⟨line, rest⟩
  · left
    unfold ppStep
    rw [hl]
  · right
    have hs : ppStep fs st = ppBody fs
        { lines := rest, macros := st.macros, out := st.out,
          curline := if (if line = ['@'] then !st.countlines else st.countlines)
                     then st.curline + countNL line else st.curline,
          countlines := if line = ['@'] then !st.countlines else st.countlines,
          in_include := if line = ['@'] then !st.in_include else st.in_include,
          errs := st.errs } line := by
      unfold ppStep
      rw [hl]
    rcases ppBody_cases fs
        { lines := rest, macros := st.macros, out := st.out,
          curline := if (if line = ['@'] then !st.countlines else st.countlines)
                     then st.curline + countNL line else st.curline,
          countlines := if line = ['@'] then !st.countlines else st.countlines,
          in_include := if line = ['@'] then !st.in_include else st.in_include,
          errs := st.errs } line with hf | ⟨st', d, hn, ho⟩
    · exact Or.inl (hs.trans hf)
    · exact Or.inr ⟨st', d, hs.trans hn, ho⟩

theorem ppLoop_out_isPre (fs : List (List Char × List Char)) :
    ∀ (fuel : Nat) (st : PPState) (r : List Char),
      ppLoop fs fuel st = some r → ∃ d, r = st.out ++ d := by
  intro fuel
  induction fuel with
  | zero => intro st r h; cases h
  | succ f ih =>
      intro st r h
      unfold ppLoop at h
      rcases ppStep_cases fs st with hd | hf | ⟨st', d, hn, ho⟩
      · rw [hd] at h
        cases h
        exact ⟨[], by simp⟩
      · rw [hf] at h
        cases h
      · rw [hn] at h
        obtain ⟨e, he⟩ := ih st' r h
        exact ⟨d ++ e, by rw [he, ho, List.append_assoc]⟩


theorem ppStep_hash_first (fs : List (List Char × List Char)) (st : PPState)
    (line : List Char) (rest : List (List Char)) (hl : st.lines = line :: rest)
    (hh : (['#']).isPrefixOf line = true) :
    ppStep fs st = PPStep.fail ∨
    ∃ st', ppStep fs st = PPStep.next st' ∧ st'.out = st.out ++ ['\n'] := by
  have hs : ppStep fs st = ppBody fs
      { lines := rest, macros := st.macros, out := st.out,
        curline := if (if line = ['@'] then !st.countlines else st.countlines)
                   then st.curline + countNL line else st.curline,
        countlines := if line = ['@'] then !st.countlines else st.countlines,
        in_include := if line = ['@'] then !st.in_include else st.in_include,
        errs := st.errs } line := by
    unfold ppStep
    rw [hl]
  rcases ppBody_hash fs
      { lines := rest, macros := st.macros, out := st.out,
        curline := if (if line = ['@'] then !st.countlines else st.countlines)
                   then st.curline + countNL line else st.curline,
        countlines := if line = ['@'] then !st.countlines else st.countlines,
        in_include := if line = ['@'] then !st.in_include else st.in_include,
        errs := st.errs } line hh with hf | ⟨st', hn, ho⟩
  · exact Or.inl (hs.trans hf)
  · exact Or.inr ⟨st', hs.trans hn, ho⟩

/-- C8 amended: whenever the preprocessor succeeds (it raises on the empty
string), its output is a fixed point: a non-`#` source is returned
untouched, and a `#` source produces output beginning with a blank line, on
which a second run is the identity — for any filesystem and any fuel. -/
theorem c8_preproc_idempotent_on_success (fs : List (List Char × List Char)) (fuel : Nat)
    (s t : List Char) (h : preproc fs fuel s = some t) :
    ∀ fuel2, preproc fs fuel2 t = some t := by
  intro fuel2
  cases s with
  | nil => cases h
  | cons c s' =>
      rw [show preproc fs fuel (c :: s')
            = if c = '#' then
                ppLoop fs fuel
                  { lines := splitlines (c :: s'), macros := [], out := [],
                    curline := 0, countlines := true, in_include := false,
                    errs := 0 }
              else some (c :: s') from rfl] at h
      by_cases hc : c = '#'
      · rw [if_pos hc] at h
        subst hc
        cases fuel with
        | zero => cases h
        | succ f =>
            obtain ⟨t1, ls, hsp⟩ := splitlines_hash s'
            rcases ppStep_hash_first fs
                { lines := splitlines ('#' :: s'), macros := [], out := [],
                  curline := 0, countlines := true, in_include := false,
                  errs := 0 } ('#' :: t1) ls hsp
                (by simp [List.isPrefixOf]) with hf | ⟨st', hn, ho⟩
            · unfold ppLoop at h
              rw [hf] at h
              cases h
            · unfold ppLoop at h
              rw [hn] at h
              obtain ⟨d, hd⟩ := ppLoop_out_isPre fs f st' t h
              have ht : t = '\n' :: d := by
                rw [hd, ho]
                rfl
              rw [ht]
              rfl
      · rw [if_neg hc] at h
        cases h
        rw [show preproc fs fuel2 (c :: s')
              = if c = '#' then
                  ppLoop fs fuel2
                    { lines := splitlines (c :: s'), macros := [], out := [],
                      curline := 0, countlines := true, in_include := false,
                      errs := 0 }
                else some (c :: s') from rfl]
      
        rw [if_neg hc]

/-- C8 counterexample: on the empty string the preprocessor evaluates
`source[0]` and raises IndexError instead of acting as the identity, so
`preproc (preproc s) = preproc s` fails at `s = ""`. -/
theorem c8_empty_input_not_identity : preproc [] 1 [] = none := rfl

/-- C8 witness: the idempotence theorem applied at the concrete source
consisting of a single `#` directive line. -/
theorem c8_preproc_idempotent_witness :
    preproc [] 2 ('#' :: '\n' :: []) = some ('\n' :: [])
    ∧ preproc [] 2 ('\n' :: []) = some ('\n' :: []) :=
  ⟨rfl, c8_preproc_idempotent_on_success [] 2 ('#' :: '\n' :: []) ('\n' :: []) rfl 2⟩

end Pp

namespace Lk

theorem except_bind_ok {E A B : Type} (a : A) (k : A → Except E B) :
    (Except.ok (ε := E) a >>= k) = k a := rfl

theorem seglen_cons (e : Elem) (rest : List Elem) :
    seglen (e :: rest) = e.len + seglen rest := by
  simp [seglen]

theorem resolveRef_ok_len (tabs : List (List (String × Symbol))) (off : Int)
    (r : Reference) (h : refResolves tabs r = true) :
    ∃ b, resolveRef tabs off r = Except.ok b ∧ b.length = r.len := by
  unfold refResolves at h
  unfold resolveRef Reference.len
  by_cases h2 : bit 2 r.flags
  · rw [if_pos h2] at h ⊢
    cases hf : findTab tabs r.name with
    | none => rw [hf] at h; cases h
    | some s =>
        rw [hf] at h
        simp only [Bool.not_eq_true'] at h
        simp only [h, Bool.false_eq_true, if_false, Except.bind]
        refine ⟨_, rfl, ?_⟩
        by_cases h0 : bit 0 r.flags <;>
          by_cases h3 : bit 3 r.flags <;>
            by_cases h1 : bit 1 r.flags <;>
              first
                | simp [h0, h1, h3]
                | rfl
  · rw [if_neg h2] at h ⊢
    simp only [Except.bind]
    refine ⟨_, rfl, ?_⟩
    by_cases h0 : bit 0 r.flags <;>
      by_cases h3 : bit 3 r.flags <;>
        by_cases h1 : bit 1 r.flags <;>
          first
            | simp [h0, h1, h3]
            | rfl

theorem resolveSeg_len (tabs : List (List (String × Symbol))) (seg : List Elem) :
    ∀ off, (∀ e ∈ seg, elemResolves tabs e = true) →
    ∃ out, resolveSeg tabs off seg = Except.ok out ∧ out.length = seglen seg := by
  induction seg with
  | nil => exact fun off _ => ⟨[], rfl, rfl⟩
  | cons e rest ih =>
      intro off h
      cases e with
      | bs d =>
          obtain ⟨out, ho, hl⟩ := ih (off + Int.ofNat d.length)
            (fun e he => h e (List.mem_cons_of_mem _ he))
          refine ⟨d ++ out, ?_, ?_⟩
          · rw [resolveSeg, ho]; rfl
          · rw [seglen_cons, List.length_append, hl]; rfl
      | ref r =>
          have hr : refResolves tabs r = true := h _ (List.mem_cons_self _ _)
          obtain ⟨b, hb, hbl⟩ := resolveRef_ok_len tabs off r hr
          obtain ⟨out, ho, hl⟩ := ih (off + Int.ofNat b.length)
            (fun e he => h e (List.mem_cons_of_mem _ he))
          refine ⟨b ++ out, ?_, ?_⟩
          · rw [resolveSeg, hb, except_bind_ok, ho, except_bind_ok]
            rfl
          · rw [seglen_cons, List.length_append, hl, hbl]; rfl

theorem linkPass_len (symtab : List (String × Symbol)) (getseg : Module → List Elem)
    (pairs : List (Module × List (String × Symbol))) :
    ∀ off, (∀ p ∈ pairs, ∀ e ∈ getseg p.1, elemResolves [p.2, symtab] e = true) →
    ∃ out, linkPass symtab getseg off pairs = Except.ok out
      ∧ out.length = (pairs.map (fun p => seglen (getseg p.1))).sum := by
  induction pairs with
  | nil => exact fun off _ => ⟨[], rfl, rfl⟩
  | cons p rest ih =>
      intro off h
      obtain ⟨b, hb, hbl⟩ := resolveSeg_len [p.2, symtab] (getseg p.1) off
        (fun e he => h p (List.mem_cons_self _ _) e he)
      obtain ⟨out, ho, hl⟩ := ih (off + Int.ofNat b.length)
        (fun q hq e he => h q (List.mem_cons_of_mem _ hq) e he)
      refine ⟨b ++ out, ?_, ?_⟩
      · rw [linkPass]
        cases p with
        | mk m tab =>
            simp only at hb ⊢
            rw [hb, except_bind_ok, ho, except_bind_ok]
            rfl
      · rw [List.length_append, hbl, hl]
        simp


/-- C5: a module linked alone, all of whose references resolve, links to a
binary of length `seglen(text) + seglen(data) + bss_len`, with the bss tail
zero-filled. -/
theorem c5_link_alone_length (M : Module)
    (h : ∀ e ∈ M.text ++ M.data,
      elemResolves [(buildsyms [M]).modsyms.headD [], (buildsyms [M]).symtab] e = true) :
    ∃ out, link [M] = Except.ok out
      ∧ out.length = seglen M.text + seglen M.data + M.bss_len
      ∧ out.drop (seglen M.text + seglen M.data) = List.replicate M.bss_len 0 := by
  obtain ⟨tab, htab⟩ : ∃ tab, (buildsyms [M]).modsyms = [tab] := ⟨_, rfl⟩
  have hh : ∀ e ∈ M.text ++ M.data,
      elemResolves [tab, (buildsyms [M]).symtab] e = true := by
    intro e he
    have := h e he
    rwa [htab] at this
  obtain ⟨t, ht, htl⟩ := linkPass_len (buildsyms [M]).symtab (fun m => m.text)
    [(M, tab)] 0
    (by
      intro p hp e he
      rcases List.mem_singleton.mp hp with rfl
      exact hh e (List.mem_append_left _ he))
  obtain ⟨d, hd, hdl⟩ := linkPass_len (buildsyms [M]).symtab (fun m => m.data)
    [(M, tab)] (Int.ofNat t.length)
    (by
      intro p hp e he
      rcases List.mem_singleton.mp hp with rfl
      exact hh e (List.mem_append_right _ he))
  have hlink : link [M] = Except.ok (t ++ (d ++ List.replicate M.bss_len 0)) := by
    unfold link
    simp only [htab, List.zip_cons_cons, List.zip_nil_right]
    rw [ht, except_bind_ok, hd, except_bind_ok]
    simp
    rfl
  refine ⟨_, hlink, ?_, ?_⟩
  · simp only [List.length_append, htl, hdl, List.length_replicate]
    simp
    omega
  · have : t.length + d.length = seglen M.text + seglen M.data := by
      rw [htl, hdl]
      simp
    rw [← List.append_assoc]
    rw [show seglen M.text + seglen M.data = (t ++ d).length by
      rw [List.length_append, this]]
    exact List.drop_left _ _

end Lk

namespace Lk

/-- C5 witness: the length theorem applied to a concrete module with one
literal run and one resolving symbol reference in text, one data byte, and
three bytes of bss. -/
theorem c5_link_alone_length_witness :
    ∃ out,
      link [{ text := [Elem.bs [1], Elem.ref ⟨20, "g", 1⟩],
              data := [Elem.bs [9]],
              symtab := [("g", ⟨8, "g", 4659⟩)], bss_len := 3 }]
        = Except.ok out
      ∧ out.length = seglen [Elem.bs [1], Elem.ref ⟨20, "g", 1⟩]
          + seglen [Elem.bs [9]] + 3
      ∧ out.drop (seglen [Elem.bs [1], Elem.ref ⟨20, "g", 1⟩]
          + seglen [Elem.bs [9]]) = List.replicate 3 0 :=
  c5_link_alone_length
    { text := [Elem.bs [1], Elem.ref ⟨20, "g", 1⟩], data := [Elem.bs [9]],
      symtab := [("g", ⟨8, "g", 4659⟩)], bss_len := 3 }
    (by decide)

/-- C3 counterexample: two modules that both export the non-common symbol
`a` link without any error — `link` returns a result instead of reporting
one — and the later module's definition silently replaces the earlier one
in the global symbol table (the value 2 is module two's symbol value 1
shifted by its text offset 1). -/
theorem c3_duplicate_exports_not_an_error :
    link [{ text := [Elem.bs [1]], data := [], symtab := [("a", ⟨8, "a", 0⟩)],
            bss_len := 0 },
          { text := [Elem.bs [2, 3]], data := [], symtab := [("a", ⟨8, "a", 1⟩)],
            bss_len := 0 }]
      = Except.ok [1, 2, 3]
    ∧ lookupAL (buildsyms
        [{ text := [Elem.bs [1]], data := [], symtab := [("a", ⟨8, "a", 0⟩)],
           bss_len := 0 },
         { text := [Elem.bs [2, 3]], data := [], symtab := [("a", ⟨8, "a", 1⟩)],
           bss_len := 0 }]).symtab "a"
      = some ⟨8, "a", 2⟩ := by
  exact ⟨rfl, rfl⟩

end Lk

/-!
Association-list lemmas used by the linker symbol-table theorems.
-/

section ALists

variable {A B : Type} [BEq A] [LawfulBEq A]

theorem lookupAL_nil (k : A) : lookupAL ([] : List (A × B)) k = none := rfl

theorem lookupAL_cons (p : A × B) (rest : List (A × B)) (k : A) :
    lookupAL (p :: rest) k = if p.1 == k then some p.2 else lookupAL rest k := by
  by_cases h : p.1 == k <;> simp [lookupAL, List.find?_cons, h]

theorem lookupAL_append (t l : List (A × B)) (k : A) :
    lookupAL (t ++ l) k =
      match lookupAL t k with
      | some v => some v
      | none => lookupAL l k := by
  unfold lookupAL
  rw [List.find?_append]
  cases List.find? (fun p => p.1 == k) t <;> simp

theorem lookupAL_eq_some {l : List (A × B)} {n : A} {v : B}
    (h : lookupAL l n = some v) : ∃ q ∈ l, q.1 = n ∧ q.2 = v := by
  unfold lookupAL at h
  cases hf : l.find? (fun p => p.1 == n) with
  | none => rw [hf] at h; cases h
  | some q =>
      rw [hf] at h
      cases h
      have hq := List.find?_some hf
      exact ⟨q, List.mem_of_find?_eq_some hf, eq_of_beq (by simpa using hq), rfl⟩

theorem lookupAL_none_of_not_mem {l : List (A × B)} {n : A}
    (h : n ∉ l.map Prod.fst) : lookupAL l n = none := by
  cases hl : lookupAL l n with
  | none => rfl
  | some v =>
      obtain ⟨q, hq, hqn, _⟩ := lookupAL_eq_some hl
      exact absurd (List.mem_map.mpr ⟨q, hq, hqn⟩) h

theorem lookupAL_isSome_of_mem {l : List (A × B)} {q : A × B} (h : q ∈ l) :
    (lookupAL l q.1).isSome := by
  have hs : (List.find? (fun p => p.1 == q.1) l).isSome :=
    List.find?_isSome.mpr ⟨q, h, by simp⟩
  unfold lookupAL
  cases hf : List.find? (fun p => p.1 == q.1) l with
  | none => rw [hf] at hs; cases hs
  | some p => simp

theorem lookupAL_of_mem_nodup {l : List (A × B)} (hn : (l.map Prod.fst).Nodup)
    {q : A × B} (h : q ∈ l) : lookupAL l q.1 = some q.2 := by
  induction l with
  | nil => cases h
  | cons p rest ih =>
      rcases List.mem_cons.mp h with rfl | hmem
      · rw [lookupAL_cons, if_pos (by simp)]
      · have hp1 : p.1 ∉ rest.map Prod.fst := (List.nodup_cons.mp hn).1
        have hne : ¬(p.1 == q.1) := by
          intro hb
          exact hp1 (eq_of_beq hb ▸ List.mem_map.mpr ⟨q, hmem, rfl⟩)
        rw [lookupAL_cons, if_neg hne]
        exact ih (List.nodup_cons.mp hn).2 hmem

theorem mem_of_lookupAL {l : List (A × B)} {n : A} {v : B}
    (h : lookupAL l n = some v) : (n, v) ∈ l := by
  obtain ⟨q, hq, hqn, hqv⟩ := lookupAL_eq_some h
  have hqe : q = (n, v) := by
    cases q
    simp at hqn hqv
    simp [hqn, hqv]
  exact hqe ▸ hq

theorem lookupAL_aset (m : List (A × B)) (k : A) (v : B) (n : A) :
    lookupAL (aset m k v) n = if k == n then some v else lookupAL m n := by
  induction m with
  | nil =>
      by_cases h : k == n <;> simp [aset, lookupAL_cons, lookupAL_nil, h]
  | cons p rest ih =>
      by_cases hp : p.1 == k
      · have hpk : p.1 = k := eq_of_beq hp
        by_cases h : k == n <;>
          simp [aset, hp, lookupAL_cons, h, hpk]
      · rw [show aset (p :: rest) k v = p :: aset rest k v by simp [aset, hp]]
        by_cases h : k == n
        · have hkn : k = n := eq_of_beq h
          have hpn : ¬(p.1 == n) = true := by
            subst hkn
            exact hp
          rw [lookupAL_cons, if_neg hpn, ih, if_pos h, if_pos h]
        · rw [lookupAL_cons, ih, if_neg h, if_neg h, lookupAL_cons]

theorem mem_aset {m : List (A × B)} {k : A} {v : B} {q : A × B}
    (h : q ∈ aset m k v) : q ∈ m ∨ q = (k, v) := by
  induction m with
  | nil => simp [aset] at h; simp [h]
  | cons p rest ih =>
      by_cases hp : p.1 == k
      · simp [aset, hp] at h
        rcases h with h | h
        · exact Or.inr (by simp [h])
        · exact Or.inl (List.mem_cons_of_mem _ h)
      · simp only [aset, hp, Bool.false_eq_true, if_false, List.mem_cons] at h
        rcases h with h | h
        · exact Or.inl (by simp [h])
        · rcases ih h with h2 | h2
          · exact Or.inl (List.mem_cons_of_mem _ h2)
          · exact Or.inr h2

theorem keys_nodup_aset (m : List (A × B)) (k : A) (v : B)
    (hn : (m.map Prod.fst).Nodup) : ((aset m k v).map Prod.fst).Nodup := by
  induction m with
  | nil => simp [aset]
  | cons p rest ih =>
      by_cases hp : p.1 == k
      · have hpk : p.1 = k := eq_of_beq hp
        simp only [aset, hp, if_true, List.map_cons]
        simp only [List.map_cons] at hn
        rw [List.nodup_cons] at hn ⊢
        exact ⟨by simpa [← hpk] using hn.1, hn.2⟩
      · simp only [aset, hp, Bool.false_eq_true, if_false, List.map_cons]
        simp only [List.map_cons] at hn
        rw [List.nodup_cons] at hn ⊢
        constructor
        · intro hmem
          obtain ⟨q, hq, hqe⟩ := List.mem_map.mp hmem
          rcases mem_aset hq with h2 | h2
          · exact hn.1 (List.mem_map.mpr ⟨q, h2, hqe⟩)
          · subst h2
            exact hp (by rw [← hqe]; simp)
        · exact ih hn.2

theorem aset_fresh (m : List (A × B)) (k : A) (v : B)
    (h : lookupAL m k = none) : aset m k v = m ++ [(k, v)] := by
  induction m with
  | nil => rfl
  | cons p rest ih =>
      rw [lookupAL_cons] at h
      by_cases hp : p.1 == k
      · simp [hp] at h
      · simp only [aset, hp, Bool.false_eq_true, if_false, List.cons_append,
          List.cons.injEq, true_and]
        exact ih (by simpa [hp] using h)

theorem updateAL_nil (t : List (A × B)) : updateAL t ([] : List (A × B)) = t := rfl

theorem updateAL_cons (t : List (A × B)) (p : A × B) (l : List (A × B)) :
    updateAL t (p :: l) = updateAL (aset t p.1 p.2) l := rfl

theorem lookupAL_updateAL_nodup (l : List (A × B)) (hn : (l.map Prod.fst).Nodup) :
    ∀ (t : List (A × B)) (n : A),
      lookupAL (updateAL t l) n =
        match lookupAL l n with
        | some v => some v
        | none => lookupAL t n := by
  induction l with
  | nil => intro t n; simp [updateAL_nil, lookupAL_nil]
  | cons p rest ih =>
      intro t n
      rw [updateAL_cons, ih (List.nodup_cons.mp hn).2, lookupAL_cons]
      by_cases h : p.1 == n
      · have he : p.1 = n := eq_of_beq h
        have hrest : lookupAL rest n = none :=
          lookupAL_none_of_not_mem (he ▸ (List.nodup_cons.mp hn).1)
        simp [hrest, lookupAL_aset, he]
      · rw [if_neg h, lookupAL_aset, if_neg h]

theorem updateAL_fresh (t l : List (A × B))
    (hl : (l.map Prod.fst).Nodup)
    (hd : ∀ k ∈ l.map Prod.fst, lookupAL t k = none) :
    updateAL t l = t ++ l := by
  induction l generalizing t with
  | nil => simp [updateAL_nil]
  | cons p rest ih =>
      rw [updateAL_cons, aset_fresh t p.1 p.2 (hd p.1 (by simp))]
      rw [ih (t ++ [(p.1, p.2)]) (List.nodup_cons.mp hl).2]
      · simp
      · intro k hk
        have hkt : lookupAL t k = none := hd k (List.mem_cons_of_mem _ hk)
        have hkp : ¬(p.1 == k) = true := by
          intro hb
          exact (List.nodup_cons.mp hl).1 (eq_of_beq hb ▸ hk)
        rw [lookupAL_append, hkt, lookupAL_cons, if_neg hkp, lookupAL_nil]

end ALists
namespace Lk

theorem segPass_cons (segnum : Nat) (off : Int) (m : Module)
    (tab : List (String × Symbol)) (rest : List (Module × List (String × Symbol))) :
    segPass segnum off ((m, tab) :: rest) =
      ((segPass segnum (off + Int.ofNat (segSize segnum m)) rest).1,
       (m, updateAL tab (segFilterMod segnum off m))
         :: (segPass segnum (off + Int.ofNat (segSize segnum m)) rest).2) := rfl

theorem segPass_rel (segnum : Nat) :
    ∀ (l : List (Module × List (String × Symbol))) (off : Int),
      List.Forall₂
        (fun p q => q.1 = p.1 ∧
          ∃ o, q.2 = updateAL p.2 (segFilterMod segnum o p.1))
        l (segPass segnum off l).2 := by
  intro l
  induction l with
  | nil => intro off; exact List.Forall₂.nil
  | cons p rest ih =>
      intro off
      cases p with
      | mk m tab =>
          rw [segPass_cons]
          exact List.Forall₂.cons ⟨rfl, off, rfl⟩
            (ih (off + Int.ofNat (segSize segnum m)))

theorem forall2_comp {α β γ : Type} {R : α → β → Prop} {S : β → γ → Prop}
    {a : List α} {b : List β} {c : List γ}
    (hab : List.Forall₂ R a b) (hbc : List.Forall₂ S b c) :
    List.Forall₂ (fun x z => ∃ y, R x y ∧ S y z) a c := by
  induction hab generalizing c with
  | nil => cases hbc; exact List.Forall₂.nil
  | cons hr _ ih =>
      cases hbc with
      | cons hs hrest => exact List.Forall₂.cons ⟨_, hr, hs⟩ (ih hrest)

theorem forall2_triv (mods : List Module) :
    List.Forall₂ (fun (m : Module) (p : Module × List (String × Symbol)) =>
      p = (m, [])) mods (mods.map (fun m => (m, []))) := by
  induction mods with
  | nil => exact List.Forall₂.nil
  | cons m rest ih => exact List.Forall₂.cons rfl ih

theorem phaseA_rel (mods : List Module) :
    List.Forall₂
      (fun m tab => ∃ o0 o1 o2,
        tab = updateAL (updateAL (updateAL [] (segFilterMod 0 o0 m))
                (segFilterMod 1 o1 m)) (segFilterMod 2 o2 m))
      mods (phaseA mods).2 := by
  have h0 := forall2_triv mods
  have h1 := segPass_rel 0 (mods.map (fun m => (m, []))) 0
  have h2 := segPass_rel 1 (segPass 0 0 (mods.map (fun m => (m, [])))).2
    (segPass 0 0 (mods.map (fun m => (m, [])))).1
  have h3 := segPass_rel 2 (segPass 1 (segPass 0 0 (mods.map (fun m => (m, [])))).1
      (segPass 0 0 (mods.map (fun m => (m, [])))).2).2
    (segPass 1 (segPass 0 0 (mods.map (fun m => (m, [])))).1
      (segPass 0 0 (mods.map (fun m => (m, [])))).2).1
  have hc := forall2_comp (forall2_comp (forall2_comp h0 h1) h2) h3
  have hshape : (phaseA mods).2 =
      (segPass 2 (segPass 1 (segPass 0 0 (mods.map (fun m => (m, [])))).1
        (segPass 0 0 (mods.map (fun m => (m, [])))).2).1
        (segPass 1 (segPass 0 0 (mods.map (fun m => (m, [])))).1
        (segPass 0 0 (mods.map (fun m => (m, [])))).2).2).2.map Prod.snd := rfl
  rw [hshape]
  rw [List.forall₂_map_right_iff]
  refine hc.imp ?_
  rintro m q ⟨y2, ⟨y1, ⟨y0, rfl, hy1a, o0, hy1b⟩, hy2a, o1, hy2b⟩, hqa, o2, hqb⟩
  refine ⟨o0, o1, o2, ?_⟩
  rw [hqb, hy2b, hy1b, hy2a, hy1a]

end Lk

namespace Lk

/-- The adjusted symbol a segment pass stores for a source symbol. -/
theorem segFilterMod_mem {segnum : Nat} {off : Int} {m : Module}
    {q : String × Symbol} :
    q ∈ segFilterMod segnum off m ↔
      ∃ p ∈ m.symtab, segOf p.2.flags = segnum ∧
        q = (p.2.name,
             if isCommon p.2 then p.2 else { p.2 with value := p.2.value + off }) := by
  unfold segFilterMod
  rw [List.mem_filterMap]
  constructor
  · rintro ⟨p, hp, hf⟩
    by_cases hs : segOf p.2.flags != segnum
    · rw [if_pos hs] at hf
      cases hf
    · rw [if_neg hs] at hf
      have hseg : segOf p.2.flags = segnum := by
        simpa using hs
      by_cases hc : isCommon p.2
      · rw [if_pos hc] at hf
        cases hf
        exact ⟨p, hp, hseg, by simp [hc]⟩
      · rw [if_neg hc] at hf
        cases hf
        exact ⟨p, hp, hseg, by simp [hc]⟩
  · rintro ⟨p, hp, hseg, rfl⟩
    refine ⟨p, hp, ?_⟩
    rw [if_neg (by simp [hseg])]
    by_cases hc : isCommon p.2 <;> simp [hc]

theorem keys_segFilterMod_sublist (segnum : Nat) (off : Int) (m : Module) :
    ((segFilterMod segnum off m).map Prod.fst).Sublist
      (m.symtab.map (fun p => p.2.name)) := by
  unfold segFilterMod
  induction m.symtab with
  | nil => simp
  | cons p rest ih =>
      simp only [List.filterMap_cons, List.map_cons]
      by_cases hs : segOf p.2.flags != segnum
      · rw [if_pos hs]
        exact List.Sublist.cons p.2.name ih
      · rw [if_neg hs]
        by_cases hc : isCommon p.2
        · rw [if_pos hc]
          simpa using List.Sublist.cons₂ p.2.name ih
        · rw [if_neg hc]
          simpa using List.Sublist.cons₂ p.2.name ih

theorem keys_segFilterMod_nodup {segnum : Nat} {off : Int} {m : Module}
    (hwf : wfMod m) : ((segFilterMod segnum off m).map Prod.fst).Nodup := by
  have hnames : m.symtab.map (fun p => p.2.name) = m.symtab.map Prod.fst :=
    List.map_congr_left (fun p hp => (hwf.1 p hp).1)
  exact ((keys_segFilterMod_sublist segnum off m).nodup
    (hnames ▸ hwf.2))

theorem key_seg_unique {m : Module} (hwf : wfMod m)
    {segnum segnum' : Nat} {off off' : Int} {k : String}
    (h : k ∈ (segFilterMod segnum off m).map Prod.fst)
    (h' : k ∈ (segFilterMod segnum' off' m).map Prod.fst) :
    segnum = segnum' := by
  obtain ⟨q, hq, hqk⟩ := List.mem_map.mp h
  obtain ⟨q', hq', hqk'⟩ := List.mem_map.mp h'
  obtain ⟨p, hp, hseg, hqe⟩ := segFilterMod_mem.mp hq
  obtain ⟨p', hp', hseg', hqe'⟩ := segFilterMod_mem.mp hq'
  have hk : p.2.name = k := by rw [hqe] at hqk; simpa using hqk
  have hk' : p'.2.name = k := by rw [hqe'] at hqk'; simpa using hqk'
  -- same key means same symtab entry, by nodup of the keys
  have hpk : p.1 = k := by rw [← (hwf.1 p hp).1, hk]
  have hpk' : p'.1 = k := by rw [← (hwf.1 p' hp').1, hk']
  have hvals : p.2 = p'.2 := by
    have h1 : lookupAL m.symtab k = some p.2 := by
      rw [← hpk]
      exact lookupAL_of_mem_nodup hwf.2 hp
    have h2 : lookupAL m.symtab k = some p'.2 := by
      rw [← hpk']
      exact lookupAL_of_mem_nodup hwf.2 hp'
    have := h1.symm.trans h2
    simpa using this
  rw [← hseg, ← hseg', hvals]

/-- Under well-formedness the three chained updates of a module's
per-module table are a plain concatenation of the three segment filters. -/
theorem tab_eq_append {m : Module} (hwf : wfMod m) (o0 o1 o2 : Int) :
    updateAL (updateAL (updateAL [] (segFilterMod 0 o0 m))
        (segFilterMod 1 o1 m)) (segFilterMod 2 o2 m)
      = segFilterMod 0 o0 m ++ segFilterMod 1 o1 m ++ segFilterMod 2 o2 m := by
  have n0 := @keys_segFilterMod_nodup 0 o0 m hwf
  have n1 := @keys_segFilterMod_nodup 1 o1 m hwf
  have n2 := @keys_segFilterMod_nodup 2 o2 m hwf
  have h01 : updateAL ([] : List (String × Symbol)) (segFilterMod 0 o0 m)
      = [] ++ segFilterMod 0 o0 m :=
    updateAL_fresh _ _ n0 (fun k _ => rfl)
  rw [h01, List.nil_append]
  have h1 : updateAL (segFilterMod 0 o0 m) (segFilterMod 1 o1 m)
      = segFilterMod 0 o0 m ++ segFilterMod 1 o1 m := by
    refine updateAL_fresh _ _ n1 (fun k hk => ?_)
    refine lookupAL_none_of_not_mem (fun hk0 => ?_)
    exact absurd (key_seg_unique hwf hk0 hk) (by decide)
  rw [h1]
  refine updateAL_fresh _ _ n2 (fun k hk => ?_)
  refine lookupAL_none_of_not_mem (fun hk01 => ?_)
  rw [List.map_append, List.mem_append] at hk01
  rcases hk01 with hk0 | hk1
  · exact absurd (key_seg_unique hwf hk0 hk) (by decide)
  · exact absurd (key_seg_unique hwf hk1 hk) (by decide)

end Lk

namespace Lk

theorem forall2_mem_right {α β : Type} {R : α → β → Prop} {a : List α}
    {b : List β} (h : List.Forall₂ R a b) {y : β} (hy : y ∈ b) :
    ∃ x ∈ a, R x y := by
  induction h with
  | nil => cases hy
  | cons hr _ ih =>
      rcases List.mem_cons.mp hy with rfl | hy2
      · exact ⟨_, by simp, hr⟩
      · obtain ⟨x, hx, hxy⟩ := ih hy2
        exact ⟨x, List.mem_cons_of_mem _ hx, hxy⟩

theorem forall2_mem_left {α β : Type} {R : α → β → Prop} {a : List α}
    {b : List β} (h : List.Forall₂ R a b) {x : α} (hx : x ∈ a) :
    ∃ y ∈ b, R x y := by
  induction h with
  | nil => cases hx
  | cons hr _ ih =>
      rcases List.mem_cons.mp hx with rfl | hx2
      · exact ⟨_, by simp, hr⟩
      · obtain ⟨y, hy, hxy⟩ := ih hx2
        exact ⟨y, List.mem_cons_of_mem _ hy, hxy⟩

theorem segOf_cases (flags : Nat) (h : segOf flags ≠ 3) :
    segOf flags = 0 ∨ segOf flags = 1 ∨ segOf flags = 2 := by
  unfold segOf at *
  omega

theorem adjust_flags (s : Symbol) (off : Int) :
    ({ s with value := s.value + off } : Symbol).flags = s.flags := rfl

theorem tabs_common_iff {mods : List Module} (hwf : wfMods mods) (n : String)
    (v : Int) :
    (∃ tab ∈ (phaseA mods).2, ∃ q ∈ tab,
        isCommon q.2 = true ∧ q.2.name = n ∧ q.2.value = v)
      ↔ requestsCommon mods n v := by
  constructor
  · rintro ⟨tab, htab, q, hq, hc, hn, hv⟩
    obtain ⟨m, hm, o0, o1, o2, htabeq⟩ := forall2_mem_right (phaseA_rel mods) htab
    rw [htabeq, tab_eq_append (hwf m hm)] at hq
    have hq2 : q ∈ segFilterMod 0 o0 m ∨ q ∈ segFilterMod 1 o1 m ∨
        q ∈ segFilterMod 2 o2 m := by
      rcases List.mem_append.mp hq with h1 | h2
      · rcases List.mem_append.mp h1 with ha | hb
        · exact Or.inl ha
        · exact Or.inr (Or.inl hb)
      · exact Or.inr (Or.inr h2)
    have key : ∀ (segnum : Nat) (off : Int), q ∈ segFilterMod segnum off m →
        requestsCommon mods n v := by
      intro segnum off hmem
      obtain ⟨p, hp, hseg, hqe⟩ := segFilterMod_mem.mp hmem
      by_cases hpc : isCommon p.2
      · rw [if_pos hpc] at hqe
        refine ⟨m, hm, p, hp, hpc, ?_, ?_⟩
        · rw [← hn, hqe]
        · rw [← hv, hqe]
      · rw [if_neg hpc] at hqe
        exfalso
        apply hpc
        have : isCommon q.2 = isCommon p.2 := by
          rw [hqe]
          rfl
        rw [← this, hc]
    rcases hq2 with h | h | h
    · exact key 0 o0 h
    · exact key 1 o1 h
    · exact key 2 o2 h
  · rintro ⟨m, hm, p, hp, hc, hn, hv⟩
    obtain ⟨tab, htab, o0, o1, o2, htabeq⟩ := forall2_mem_left (phaseA_rel mods) hm
    refine ⟨tab, htab, (p.2.name, p.2), ?_, hc, hn, hv⟩
    rw [htabeq, tab_eq_append (hwf m hm)]
    have hmem : ∀ (segnum : Nat) (off : Int), segOf p.2.flags = segnum →
        (p.2.name, p.2) ∈ segFilterMod segnum off m := by
      intro segnum off hseg
      exact segFilterMod_mem.mpr ⟨p, hp, hseg, by rw [if_pos hc]⟩
    rcases segOf_cases p.2.flags ((hwf m hm).1 p hp).2 with h | h | h
    · exact List.mem_append.mpr (Or.inl (List.mem_append.mpr (Or.inl (hmem 0 o0 h))))
    · exact List.mem_append.mpr (Or.inl (List.mem_append.mpr (Or.inr (hmem 1 o1 h))))
    · exact List.mem_append.mpr (Or.inr (hmem 2 o2 h))

end Lk

namespace Lk

theorem tabs_export_of_mods {mods : List Module} (hwf : wfMods mods) {n : String}
    (h : exportsNonCommon mods n) :
    ∃ tab ∈ (phaseA mods).2, ∃ q ∈ tab,
      isExport q.2 = true ∧ isCommon q.2 = false ∧ q.2.name = n := by
  obtain ⟨m, hm, p, hp, he, hc, hn⟩ := h
  obtain ⟨tab, htab, o0, o1, o2, htabeq⟩ := forall2_mem_left (phaseA_rel mods) hm
  have hmem : ∀ (segnum : Nat) (off : Int), segOf p.2.flags = segnum →
      ∃ q ∈ segFilterMod segnum off m,
        isExport q.2 = true ∧ isCommon q.2 = false ∧ q.2.name = n := by
    intro segnum off hseg
    refine ⟨(p.2.name, { p.2 with value := p.2.value + off }), ?_, he, hc, hn⟩
    exact segFilterMod_mem.mpr ⟨p, hp, hseg, by rw [if_neg (by simp [hc])]⟩
  have hall : ∃ q ∈ segFilterMod 0 o0 m ++ segFilterMod 1 o1 m
      ++ segFilterMod 2 o2 m,
      isExport q.2 = true ∧ isCommon q.2 = false ∧ q.2.name = n := by
    rcases segOf_cases p.2.flags ((hwf m hm).1 p hp).2 with hs | hs | hs
    · obtain ⟨q, hq, hprops⟩ := hmem 0 o0 hs
      exact ⟨q, List.mem_append.mpr (Or.inl (List.mem_append.mpr (Or.inl hq))),
        hprops⟩
    · obtain ⟨q, hq, hprops⟩ := hmem 1 o1 hs
      exact ⟨q, List.mem_append.mpr (Or.inl (List.mem_append.mpr (Or.inr hq))),
        hprops⟩
    · obtain ⟨q, hq, hprops⟩ := hmem 2 o2 hs
      exact ⟨q, List.mem_append.mpr (Or.inr hq), hprops⟩
  obtain ⟨q, hq, hprops⟩ := hall
  exact ⟨tab, htab, q, by rw [htabeq, tab_eq_append (hwf m hm)]; exact hq, hprops⟩

theorem foldl_flatten {α β : Type} (f : β → α → β) (init : β) (ll : List (List α)) :
    ll.foldl (fun acc l => l.foldl f acc) init = ll.flatten.foldl f init := by
  induction ll generalizing init with
  | nil => rfl
  | cons l rest ih =>
      simp only [List.foldl_cons, List.flatten_cons, List.foldl_append]
      exact ih (l.foldl f init)

/-- The single step of the export-collection loop. -/
theorem exportPass_eq_flatten (tabs : List (List (String × Symbol))) :
    exportPass tabs = tabs.flatten.foldl
      (fun acc2 p =>
        if isExport p.2 && !isCommon p.2 then aset acc2 p.2.name p.2 else acc2)
      [] :=
  foldl_flatten _ [] tabs

theorem epass_good (l : List (String × Symbol)) :
    ∀ acc, (∀ k s, lookupAL acc k = some s →
        isExport s = true ∧ isCommon s = false ∧ s.name = k) →
      ∀ k s, lookupAL (l.foldl
          (fun acc2 p =>
            if isExport p.2 && !isCommon p.2 then aset acc2 p.2.name p.2 else acc2)
          acc) k = some s →
        isExport s = true ∧ isCommon s = false ∧ s.name = k := by
  induction l with
  | nil => exact fun acc h => h
  | cons p rest ih =>
      intro acc hacc
      rw [List.foldl_cons]
      by_cases hg : isExport p.2 && !isCommon p.2
      · rw [if_pos hg]
        refine ih _ ?_
        intro k s hk
        rw [lookupAL_aset] at hk
        by_cases hkn : p.2.name == k
        · rw [if_pos hkn] at hk
          cases hk
          have hg2 := hg
          simp only [Bool.and_eq_true, Bool.not_eq_true'] at hg2
          exact ⟨hg2.1, hg2.2, eq_of_beq hkn⟩
        · rw [if_neg hkn] at hk
          exact hacc k s hk
      · rw [if_neg hg]
        exact ih acc hacc

theorem epass_mono (l : List (String × Symbol)) :
    ∀ acc n, (lookupAL acc n).isSome →
      (lookupAL (l.foldl
          (fun acc2 p =>
            if isExport p.2 && !isCommon p.2 then aset acc2 p.2.name p.2 else acc2)
          acc) n).isSome := by
  induction l with
  | nil => exact fun acc n h => h
  | cons p rest ih =>
      intro acc n h
      rw [List.foldl_cons]
      by_cases hg : isExport p.2 && !isCommon p.2
      · rw [if_pos hg]
        refine ih _ n ?_
        rw [lookupAL_aset]
        by_cases hkn : p.2.name == n <;> simp [hkn, h]
      · rw [if_neg hg]
        exact ih acc n h

theorem epass_mem (l : List (String × Symbol)) :
    ∀ acc (q : String × Symbol), q ∈ l → isExport q.2 = true → isCommon q.2 = false →
      (lookupAL (l.foldl
          (fun acc2 p =>
            if isExport p.2 && !isCommon p.2 then aset acc2 p.2.name p.2 else acc2)
          acc) q.2.name).isSome := by
  induction l with
  | nil => intro _ _ h; cases h
  | cons p rest ih =>
      intro acc q hq he hc
      rw [List.foldl_cons]
      rcases List.mem_cons.mp hq with rfl | hq2
      · rw [if_pos (by simp [he, hc])]
        refine epass_mono rest _ _ ?_
        rw [lookupAL_aset, if_pos (by simp)]
        rfl
      · by_cases hg : isExport p.2 && !isCommon p.2
        · rw [if_pos hg]
          exact ih _ q hq2 he hc
        · rw [if_neg hg]
          exact ih acc q hq2 he hc

theorem exportPass_good {tabs : List (List (String × Symbol))} {k : String}
    {s : Symbol} (h : lookupAL (exportPass tabs) k = some s) :
    isExport s = true ∧ isCommon s = false ∧ s.name = k := by
  rw [exportPass_eq_flatten] at h
  exact epass_good tabs.flatten [] (fun k s hk => by cases hk) k s h

theorem exportPass_isSome {tabs : List (List (String × Symbol))}
    {q : String × Symbol} {tab : List (String × Symbol)}
    (htab : tab ∈ tabs) (hq : q ∈ tab)
    (he : isExport q.2 = true) (hc : isCommon q.2 = false) :
    (lookupAL (exportPass tabs) q.2.name).isSome := by
  rw [exportPass_eq_flatten]
  exact epass_mem tabs.flatten [] q (List.mem_flatten.mpr ⟨tab, htab, hq⟩) he hc

end Lk

namespace Lk

theorem mem_sizesOf {l : List (String × Symbol)} {n : String} {u : Int} :
    u ∈ sizesOf l n ↔
      ∃ p ∈ l, isCommon p.2 = true ∧ p.2.name = n ∧ p.2.value = u := by
  unfold sizesOf
  rw [List.mem_filterMap]
  constructor
  · rintro ⟨p, hp, hf⟩
    by_cases hg : isCommon p.2 && p.2.name == n
    · rw [if_pos hg] at hf
      cases hf
      simp only [Bool.and_eq_true, beq_iff_eq] at hg
      exact ⟨p, hp, hg.1, hg.2, rfl⟩
    · rw [if_neg hg] at hf
      cases hf
  · rintro ⟨p, hp, hc, hn, hv⟩
    exact ⟨p, hp, by rw [if_pos (by simp [hc, hn]), hv]⟩

theorem sizesOf_append (l1 l2 : List (String × Symbol)) (n : String) :
    sizesOf (l1 ++ l2) n = sizesOf l1 n ++ sizesOf l2 n := by
  unfold sizesOf
  rw [List.filterMap_append]

theorem mem_aset_nodup {A B : Type} [BEq A] [LawfulBEq A]
    {m : List (A × B)} {k : A} {v : B} {q : A × B}
    (hn : (m.map Prod.fst).Nodup) (h : q ∈ aset m k v) :
    (q ∈ m ∧ ¬(q.1 = k)) ∨ q = (k, v) := by
  induction m with
  | nil => simp [aset] at h; simp [h]
  | cons p rest ih =>
      simp only [List.map_cons] at hn
      rw [List.nodup_cons] at hn
      by_cases hp : p.1 == k
      · have hpk : p.1 = k := eq_of_beq hp
        simp only [aset, hp, if_true, List.mem_cons] at h
        rcases h with h | h
        · exact Or.inr h
        · refine Or.inl ⟨List.mem_cons_of_mem _ h, fun hqk => ?_⟩
          apply hn.1
          rw [hpk, ← hqk]
          exact List.mem_map.mpr ⟨q, h, rfl⟩
      · simp only [aset, hp, Bool.false_eq_true, if_false, List.mem_cons] at h
        rcases h with h | h
        · refine Or.inl ⟨by simp [h], fun hqk => hp ?_⟩
          rw [h] at hqk
          simp [hqk]
        · rcases ih hn.2 h with ⟨h2, h3⟩ | h2
          · exact Or.inl ⟨List.mem_cons_of_mem _ h2, h3⟩
          · exact Or.inr h2

end Lk

namespace Lk

theorem cstep_good {acc : List (String × Int)} {proc : List (String × Symbol)}
    (p : String × Symbol)
    (h1 : ∀ q ∈ acc, q.2 ∈ sizesOf proc q.1 ∧ ∀ u ∈ sizesOf proc q.1, u ≤ q.2)
    (h2 : ∀ r ∈ proc, isCommon r.2 = true → (lookupAL acc r.2.name).isSome)
    (h3 : (acc.map Prod.fst).Nodup) :
    (∀ q ∈ cstep acc p,
        q.2 ∈ sizesOf (proc ++ [p]) q.1 ∧ ∀ u ∈ sizesOf (proc ++ [p]) q.1, u ≤ q.2)
    ∧ (∀ r ∈ proc ++ [p], isCommon r.2 = true →
        (lookupAL (cstep acc p) r.2.name).isSome)
    ∧ ((cstep acc p).map Prod.fst).Nodup := by
  by_cases hc : isCommon p.2
  · have hsz : ∀ n, sizesOf (proc ++ [p]) n =
        sizesOf proc n ++ (if p.2.name = n then [p.2.value] else []) := by
      intro n
      rw [sizesOf_append]
      congr 1
      unfold sizesOf
      by_cases hn : p.2.name = n
      · rw [if_pos hn]
        simp [List.filterMap, hc, hn]
      · rw [if_neg hn]
        simp [List.filterMap, hc, hn]
    have hstep : cstep acc p = aset acc p.2.name
        (match lookupAL acc p.2.name with
         | some old => if old > p.2.value then old else p.2.value
         | none => p.2.value) := by
      unfold cstep
      rw [if_pos hc]
    refine ⟨?_, ?_, ?_⟩
    · intro q hq
      rw [hstep] at hq
      rcases mem_aset_nodup h3 hq with ⟨hqm, hqk⟩ | hqe
      · obtain ⟨hin, hub⟩ := h1 q hqm
        rw [hsz q.1, if_neg (fun he => hqk he.symm)]
        refine ⟨by simpa using hin, ?_⟩
        intro u hu
        rw [List.append_nil] at hu
        exact hub u hu
      · subst hqe
        rw [hsz p.2.name, if_pos rfl]
        cases hl : lookupAL acc p.2.name with
        | some old =>
            obtain ⟨hin, hub⟩ := h1 (p.2.name, old) (mem_of_lookupAL hl)
            simp only [hl]
            by_cases hgt : old > p.2.value
            · rw [if_pos hgt]
              refine ⟨List.mem_append_left _ hin, ?_⟩
              intro u hu
              rcases List.mem_append.mp hu with hu | hu
              · exact hub u hu
              · simp at hu
                omega
            · rw [if_neg hgt]
              refine ⟨List.mem_append_right _ (by simp), ?_⟩
              intro u hu
              rcases List.mem_append.mp hu with hu | hu
              · exact le_trans (hub u hu) (by omega)
              · simp at hu
                omega
        | none =>
            have hempty : sizesOf proc p.2.name = [] := by
              cases hs : sizesOf proc p.2.name with
              | nil => rfl
              | cons u us =>
                  exfalso
                  have hu : u ∈ sizesOf proc p.2.name := by rw [hs]; simp
                  obtain ⟨r, hr, hrc, hrn, _⟩ := mem_sizesOf.mp hu
                  have := h2 r hr hrc
                  rw [hrn, hl] at this
                  cases this
            simp only [hl]
            rw [hempty, List.nil_append]
            exact ⟨by simp, by intro u hu; simp at hu; omega⟩
    · intro r hr hrc
      rw [hstep, lookupAL_aset]
      by_cases hkn : p.2.name == r.2.name
      · rw [if_pos hkn]
        rfl
      · rw [if_neg hkn]
        rcases List.mem_append.mp hr with hr | hr
        · exact h2 r hr hrc
        · simp at hr
          rw [hr] at hkn
          simp at hkn
    · rw [hstep]
      exact keys_nodup_aset _ _ _ h3
  · have hCeq : cstep acc p = acc := by
      unfold cstep
      rw [if_neg hc]
    have hsz : ∀ n, sizesOf (proc ++ [p]) n = sizesOf proc n := by
      intro n
      rw [sizesOf_append]
      have : sizesOf [p] n = [] := by
        unfold sizesOf
        simp [List.filterMap, hc]
      rw [this, List.append_nil]
    rw [hCeq]
    refine ⟨?_, ?_, h3⟩
    · intro q hq
      rw [hsz]
      exact h1 q hq
    · intro r hr hrc
      rcases List.mem_append.mp hr with hr | hr
      · exact h2 r hr hrc
      · simp at hr
        rw [hr] at hrc
        rw [hrc] at hc
        cases hc rfl
end Lk

namespace Lk

theorem cfold_good (l : List (String × Symbol)) :
    ∀ (proc : List (String × Symbol)) (acc : List (String × Int)),
      (∀ q ∈ acc, q.2 ∈ sizesOf proc q.1 ∧ ∀ u ∈ sizesOf proc q.1, u ≤ q.2) →
      (∀ r ∈ proc, isCommon r.2 = true → (lookupAL acc r.2.name).isSome) →
      ((acc.map Prod.fst).Nodup) →
      (∀ q ∈ l.foldl cstep acc,
          q.2 ∈ sizesOf (proc ++ l) q.1 ∧ ∀ u ∈ sizesOf (proc ++ l) q.1, u ≤ q.2)
      ∧ (∀ r ∈ proc ++ l, isCommon r.2 = true →
          (lookupAL (l.foldl cstep acc) r.2.name).isSome)
      ∧ ((l.foldl cstep acc).map Prod.fst).Nodup := by
  induction l with
  | nil =>
      intro proc acc h1 h2 h3
      rw [List.foldl_nil, List.append_nil]
      exact ⟨h1, h2, h3⟩
  | cons p rest ih =>
      intro proc acc h1 h2 h3
      obtain ⟨g1, g2, g3⟩ := cstep_good p h1 h2 h3
      have := ih (proc ++ [p]) (cstep acc p) g1 g2 g3
      rw [List.foldl_cons]
      rw [List.append_assoc] at this
      simpa using this

theorem commonsDict_eq_flatten (tabs : List (List (String × Symbol))) :
    commonsDict tabs = tabs.flatten.foldl cstep [] :=
  foldl_flatten cstep [] tabs

theorem commonsDict_max {tabs : List (List (String × Symbol))}
    {q : String × Int} (hq : q ∈ commonsDict tabs) :
    q.2 ∈ sizesOf tabs.flatten q.1 ∧ ∀ u ∈ sizesOf tabs.flatten q.1, u ≤ q.2 := by
  rw [commonsDict_eq_flatten] at hq
  exact (cfold_good tabs.flatten [] [] (by simp [lookupAL_nil])
    (by intro r hr; cases hr) (by simp)).1 q hq
    |>.imp (by simp) (by simp)

theorem commonsDict_isSome {tabs : List (List (String × Symbol))}
    {tab : List (String × Symbol)} {r : String × Symbol}
    (htab : tab ∈ tabs) (hr : r ∈ tab) (hc : isCommon r.2 = true) :
    (lookupAL (commonsDict tabs) r.2.name).isSome := by
  rw [commonsDict_eq_flatten]
  exact (cfold_good tabs.flatten [] [] (by simp [lookupAL_nil])
    (by intro r hr; cases hr) (by simp)).2.1 r
    (by simpa using List.mem_flatten.mpr ⟨tab, htab, hr⟩) hc

theorem commonsDict_nodup (tabs : List (List (String × Symbol))) :
    ((commonsDict tabs).map Prod.fst).Nodup := by
  rw [commonsDict_eq_flatten]
  exact (cfold_good tabs.flatten [] [] (by simp [lookupAL_nil])
    (by intro r hr; cases hr) (by simp)).2.2

end Lk

namespace Lk

theorem epass_origin (l : List (String × Symbol)) :
    ∀ acc n s, lookupAL (l.foldl
        (fun acc2 p =>
          if isExport p.2 && !isCommon p.2 then aset acc2 p.2.name p.2 else acc2)
        acc) n = some s →
      lookupAL acc n = some s ∨ ∃ q ∈ l, q.2 = s := by
  induction l with
  | nil => exact fun acc n s h => Or.inl h
  | cons p rest ih =>
      intro acc n s h
      rw [List.foldl_cons] at h
      by_cases hg : isExport p.2 && !isCommon p.2
      · rw [if_pos hg] at h
        rcases ih _ n s h with h2 | ⟨q, hq, hqs⟩
        · rw [lookupAL_aset] at h2
          by_cases hkn : p.2.name == n
          · rw [if_pos hkn] at h2
            cases h2
            exact Or.inr ⟨p, by simp, rfl⟩
          · rw [if_neg hkn] at h2
            exact Or.inl h2
        · exact Or.inr ⟨q, List.mem_cons_of_mem _ hq, hqs⟩
      · rw [if_neg hg] at h
        rcases ih acc n s h with h2 | ⟨q, hq, hqs⟩
        · exact Or.inl h2
        · exact Or.inr ⟨q, List.mem_cons_of_mem _ hq, hqs⟩

theorem exportPass_origin {tabs : List (List (String × Symbol))} {n : String}
    {s : Symbol} (h : lookupAL (exportPass tabs) n = some s) :
    ∃ tab ∈ tabs, ∃ q ∈ tab, q.2 = s := by
  rw [exportPass_eq_flatten] at h
  rcases epass_origin tabs.flatten [] n s h with h2 | ⟨q, hq, hqs⟩
  · cases h2
  · obtain ⟨tab, htab, hqt⟩ := List.mem_flatten.mp hq
    exact ⟨tab, htab, q, hqt, hqs⟩


theorem mods_export_of_tabs {mods : List Module} (hwf : wfMods mods)
    {tab : List (String × Symbol)} {q : String × Symbol}
    (htab : tab ∈ (phaseA mods).2) (hq : q ∈ tab)
    (he : isExport q.2 = true) (hc : isCommon q.2 = false) :
    exportsNonCommon mods q.2.name := by
  obtain ⟨m, hm, o0, o1, o2, htabeq⟩ := forall2_mem_right (phaseA_rel mods) htab
  rw [htabeq, tab_eq_append (hwf m hm)] at hq
  have hq2 : q ∈ segFilterMod 0 o0 m ∨ q ∈ segFilterMod 1 o1 m ∨
      q ∈ segFilterMod 2 o2 m := by
    rcases List.mem_append.mp hq with h1 | h2
    · rcases List.mem_append.mp h1 with ha | hb
      · exact Or.inl ha
      · exact Or.inr (Or.inl hb)
    · exact Or.inr (Or.inr h2)
  have key : ∀ (segnum : Nat) (off : Int), q ∈ segFilterMod segnum off m →
      exportsNonCommon mods q.2.name := by
    intro segnum off hmem
    obtain ⟨p, hp, hseg, hqe⟩ := segFilterMod_mem.mp hmem
    by_cases hpc : isCommon p.2
    · rw [if_pos hpc] at hqe
      exfalso
      rw [hqe] at hc
      simp only at hc
      rw [hpc] at hc
      cases hc
    · rw [if_neg hpc] at hqe
      have hfl : q.2.flags = p.2.flags := by
        rw [hqe]
      have hnm : q.2.name = p.2.name := by
        rw [hqe]
      refine ⟨m, hm, p, hp, ?_, ?_, hnm.symm⟩
      · rw [← he]
        unfold isExport
        rw [hfl]
      · simpa using hpc
  rcases hq2 with h | h | h
  · exact key 0 o0 h
  · exact key 1 o1 h
  · exact key 2 o2 h

end Lk
namespace Lk

theorem sizesOf_flatten_iff {mods : List Module} (hwf : wfMods mods)
    {n : String} {u : Int} :
    u ∈ sizesOf (phaseA mods).2.flatten n ↔ requestsCommon mods n u := by
  rw [mem_sizesOf]
  constructor
  · rintro ⟨p, hp, hc, hn, hv⟩
    obtain ⟨tab, htab, hpt⟩ := List.mem_flatten.mp hp
    exact (tabs_common_iff hwf n u).mp ⟨tab, htab, p, hpt, hc, hn, hv⟩
  · intro h
    obtain ⟨tab, htab, q, hq, hc, hn, hv⟩ := (tabs_common_iff hwf n u).mpr h
    exact ⟨q, List.mem_flatten.mpr ⟨tab, htab, hq⟩, hc, hn, hv⟩

theorem commonsDict_isMax {mods : List Module} (hwf : wfMods mods)
    {q : String × Int} (hq : q ∈ commonsDict (phaseA mods).2) :
    isMaxRequested mods q.1 q.2 := by
  obtain ⟨h1, h2⟩ := commonsDict_max hq
  exact ⟨(sizesOf_flatten_iff hwf).mp h1,
    fun u hu => h2 u ((sizesOf_flatten_iff hwf).mpr hu)⟩

theorem commonsDict_req_isSome {mods : List Module} (hwf : wfMods mods)
    {n : String} {v : Int} (h : requestsCommon mods n v) :
    (lookupAL (commonsDict (phaseA mods).2) n).isSome := by
  obtain ⟨tab, htab, q, hq, hc, hn, hv⟩ := (tabs_common_iff hwf n v).mpr h
  have hs := commonsDict_isSome htab hq hc
  rwa [hn] at hs

theorem allocCommons_chain (mods : List Module) (rem : List (String × Int)) :
    ∀ off : Int, (∀ q ∈ rem, isMaxRequested mods q.1 q.2) →
      commonsChain mods off (allocCommons off rem).2 := by
  induction rem with
  | nil => intro off _; exact trivial
  | cons q rest ih =>
      obtain ⟨n, size⟩ := q
      intro off h
      simp only [allocCommons, commonsChain]
      refine ⟨by simp, size, h (n, size) (by simp), ?_⟩
      exact ih (off + size) (fun q hq => h q (List.mem_cons_of_mem _ hq))

theorem allocCommons_mem (rem : List (String × Int)) :
    ∀ (off : Int) (s : Symbol), s ∈ (allocCommons off rem).2 →
      s.flags = 10 ∧ ∃ q ∈ rem, s.name = q.1 := by
  induction rem with
  | nil =>
      intro off s h
      simp only [allocCommons] at h
      cases h
  | cons q rest ih =>
      obtain ⟨n, size⟩ := q
      intro off s h
      simp only [allocCommons] at h
      rcases List.mem_cons.mp h with rfl | h2
      · exact ⟨rfl, (n, size), by simp, rfl⟩
      · obtain ⟨hf, q2, hq2, hn⟩ := ih (off + size) s h2
        exact ⟨hf, q2, List.mem_cons_of_mem _ hq2, hn⟩

theorem allocCommons_names (rem : List (String × Int)) :
    ∀ off : Int, (allocCommons off rem).2.map Symbol.name = rem.map Prod.fst := by
  induction rem with
  | nil => intro off; rfl
  | cons q rest ih =>
      obtain ⟨n, size⟩ := q
      intro off
      simp only [allocCommons, List.map_cons]
      rw [ih]

theorem allocCommons_exists (rem : List (String × Int)) :
    ∀ (off : Int) (q : String × Int), q ∈ rem →
      ∃ s ∈ (allocCommons off rem).2, s.name = q.1 := by
  induction rem with
  | nil => intro off q h; cases h
  | cons p rest ih =>
      obtain ⟨n, size⟩ := p
      intro off q h
      simp only [allocCommons]
      rcases List.mem_cons.mp h with rfl | h2
      · exact ⟨⟨10, n, off⟩, by simp, rfl⟩
      · obtain ⟨s, hs, hn⟩ := ih (off + size) q h2
        exact ⟨s, List.mem_cons_of_mem _ hs, hn⟩

theorem foldl_aset_lookup_notmem (syms : List Symbol) :
    ∀ (t : List (String × Symbol)) (n : String), n ∉ syms.map Symbol.name →
      lookupAL (syms.foldl (fun t s => aset t s.name s) t) n = lookupAL t n := by
  induction syms with
  | nil => intro t n _; rfl
  | cons s rest ih =>
      intro t n h
      rw [List.foldl_cons, ih _ n (fun h2 => h (List.mem_cons_of_mem _ h2)),
        lookupAL_aset]
      have hne : ¬(s.name == n) = true := by
        intro hb
        apply h
        rw [List.map_cons, List.mem_cons]
        exact Or.inl (eq_of_beq hb).symm
      rw [if_neg hne]

theorem foldl_aset_lookup_mem (syms : List Symbol) :
    ∀ (t : List (String × Symbol)) (s : Symbol),
      (syms.map Symbol.name).Nodup → s ∈ syms →
      lookupAL (syms.foldl (fun t s => aset t s.name s) t) s.name = some s := by
  induction syms with
  | nil => intro t s _ h; cases h
  | cons p rest ih =>
      intro t s hn hs
      rw [List.map_cons] at hn
      rw [List.foldl_cons]
      rcases List.mem_cons.mp hs with rfl | h2
      · rw [foldl_aset_lookup_notmem rest _ s.name (List.nodup_cons.mp hn).1,
          lookupAL_aset, if_pos (by simp)]
      · exact ih _ s (List.nodup_cons.mp hn).2 h2

theorem resolvedPairs_mem {symtab0 : List (String × Symbol)}
    {commons : List (String × Int)} {q : String × Symbol}
    (h : q ∈ resolvedPairs symtab0 commons) :
    ∃ c ∈ commons, lookupAL symtab0 c.1 = some q.2 ∧ q.1 = q.2.name := by
  unfold resolvedPairs at h
  rw [List.mem_filterMap] at h
  obtain ⟨c, hc, hf⟩ := h
  cases hl : lookupAL symtab0 c.1 with
  | none => rw [hl] at hf; cases hf
  | some s =>
      rw [hl] at hf
      simp only [Option.map_some', Option.some.injEq] at hf
      subst hf
      exact ⟨c, hc, hl, rfl⟩

theorem resolvedPairs_exportPass_mem {tabs : List (List (String × Symbol))}
    {commons : List (String × Int)} {q : String × Symbol}
    (h : q ∈ resolvedPairs (exportPass tabs) commons) :
    q.1 ∈ commons.map Prod.fst ∧ lookupAL (exportPass tabs) q.1 = some q.2 := by
  obtain ⟨c, hc, hl, hq⟩ := resolvedPairs_mem h
  have hg := exportPass_good hl
  have hq1 : q.1 = c.1 := by rw [hq, hg.2.2]
  constructor
  · rw [hq1]; exact List.mem_map.mpr ⟨c, hc, rfl⟩
  · rw [hq1]; exact hl

theorem resolvedPairs_keys_sublist (tabs : List (List (String × Symbol)))
    (commons : List (String × Int)) :
    ((resolvedPairs (exportPass tabs) commons).map Prod.fst).Sublist
      (commons.map Prod.fst) := by
  induction commons with
  | nil => simp [resolvedPairs]
  | cons c rest ih =>
      unfold resolvedPairs at *
      rw [List.filterMap_cons]
      cases hl : lookupAL (exportPass tabs) c.1 with
      | none =>
          rw [List.map_cons]
          exact List.Sublist.cons c.1 ih
      | some s =>
          simp only [Option.map_some']
          rw [List.map_cons, List.map_cons]
          have h2 : ((s.name, s) : String × Symbol).1 = c.1 :=
            (exportPass_good hl).2.2
          rw [h2]
          exact List.Sublist.cons₂ c.1 ih

theorem resolvedPairs_keys_nodup (tabs : List (List (String × Symbol)))
    (commons : List (String × Int)) (hn : (commons.map Prod.fst).Nodup) :
    ((resolvedPairs (exportPass tabs) commons).map Prod.fst).Nodup :=
  (resolvedPairs_keys_sublist tabs commons).nodup hn

theorem lookupAL_resolvedPairs {tabs : List (List (String × Symbol))}
    {commons : List (String × Int)} {n : String} {s : Symbol}
    (h : lookupAL (resolvedPairs (exportPass tabs) commons) n = some s) :
    lookupAL (exportPass tabs) n = some s := by
  have hm := mem_of_lookupAL h
  exact (resolvedPairs_exportPass_mem hm).2

theorem remainingCommons_lookup_none {symtab0 : List (String × Symbol)}
    {commons : List (String × Int)} {q : String × Int}
    (h : q ∈ remainingCommons symtab0 commons) :
    q ∈ commons ∧ lookupAL symtab0 q.1 = none := by
  unfold remainingCommons at h
  rw [List.mem_filter] at h
  exact ⟨h.1, Option.isNone_iff_eq_none.mp (by simpa using h.2)⟩

theorem remainingCommons_keys_sublist (symtab0 : List (String × Symbol))
    (commons : List (String × Int)) :
    ((remainingCommons symtab0 commons).map Prod.fst).Sublist
      (commons.map Prod.fst) :=
  List.Sublist.map Prod.fst (List.filter_sublist commons)

end Lk
namespace Lk

theorem segPass_fst (segnum : Nat) (l : List (Module × List (String × Symbol))) :
    ∀ off : Int, (segPass segnum off l).1 =
      off + Int.ofNat ((l.map (fun p => segSize segnum p.1)).sum) := by
  induction l with
  | nil => intro off; simp [segPass]
  | cons p rest ih =>
      obtain ⟨m, tab⟩ := p
      intro off
      simp only [segPass, List.map_cons, List.sum_cons]
      rw [ih]
      simp only [Int.ofNat_eq_natCast]
      push_cast
      ring

theorem segPass_map_fst (segnum : Nat) (l : List (Module × List (String × Symbol))) :
    ∀ off : Int, (segPass segnum off l).2.map Prod.fst = l.map Prod.fst := by
  induction l with
  | nil => intro off; rfl
  | cons p rest ih =>
      obtain ⟨m, tab⟩ := p
      intro off
      simp only [segPass, List.map_cons]
      rw [ih]

theorem sum_segSize_eq_of_fst {l : List (Module × List (String × Symbol))}
    {ms : List Module} (h : l.map Prod.fst = ms) (k : Nat) :
    (l.map (fun p => segSize k p.1)).sum = (ms.map (fun m => segSize k m)).sum := by
  subst h
  rw [List.map_map]
  rfl

theorem pairs_map_fst (mods : List Module) :
    (mods.map (fun m => (m, ([] : List (String × Symbol))))).map Prod.fst = mods := by
  induction mods with
  | nil => rfl
  | cons m rest ih =>
      simp only [List.map_cons]
      rw [ih]

theorem sum_map_add3 (mods : List Module) :
    ((mods.map (fun m => segSize 0 m + segSize 1 m + segSize 2 m)).sum)
      = ((mods.map (fun m => segSize 0 m)).sum)
        + ((mods.map (fun m => segSize 1 m)).sum)
        + ((mods.map (fun m => segSize 2 m)).sum) := by
  induction mods with
  | nil => rfl
  | cons m rest ih =>
      simp only [List.map_cons, List.sum_cons]
      omega

theorem phaseA_fst (mods : List Module) :
    (phaseA mods).1 =
      Int.ofNat ((mods.map (fun m => segSize 0 m + segSize 1 m + segSize 2 m)).sum) := by
  have hshape : (phaseA mods).1 =
      (segPass 2
        (segPass 1 (segPass 0 0 (mods.map (fun m => (m, [])))).1
          (segPass 0 0 (mods.map (fun m => (m, [])))).2).1
        (segPass 1 (segPass 0 0 (mods.map (fun m => (m, [])))).1
          (segPass 0 0 (mods.map (fun m => (m, [])))).2).2).1 := rfl
  have hm0 : (segPass 0 0 (mods.map (fun m => (m, [])))).2.map Prod.fst = mods := by
    rw [segPass_map_fst, pairs_map_fst]
  have hm1 : (segPass 1 (segPass 0 0 (mods.map (fun m => (m, [])))).1
        (segPass 0 0 (mods.map (fun m => (m, [])))).2).2.map Prod.fst = mods := by
    rw [segPass_map_fst]
    exact hm0
  have hs0 : ((mods.map (fun m => (m, ([] : List (String × Symbol))))).map
        (fun p => segSize 0 p.1)).sum
      = (mods.map (fun m => segSize 0 m)).sum :=
    sum_segSize_eq_of_fst (pairs_map_fst mods) 0
  have hs1 : ((segPass 0 0 (mods.map (fun m => (m, [])))).2.map
        (fun p => segSize 1 p.1)).sum
      = (mods.map (fun m => segSize 1 m)).sum :=
    sum_segSize_eq_of_fst hm0 1
  have hs2 : ((segPass 1 (segPass 0 0 (mods.map (fun m => (m, [])))).1
        (segPass 0 0 (mods.map (fun m => (m, [])))).2).2.map
        (fun p => segSize 2 p.1)).sum
      = (mods.map (fun m => segSize 2 m)).sum :=
    sum_segSize_eq_of_fst hm1 2
  rw [hshape, segPass_fst 2, hs2, segPass_fst 1, hs1, segPass_fst 0, hs0,
    sum_map_add3]
  simp only [Int.ofNat_eq_natCast]
  push_cast
  ring

theorem buildsyms_symtab (mods : List Module) :
    (buildsyms mods).symtab =
      updateAL
        ((allocCommons (phaseA mods).1
            (remainingCommons (exportPass (phaseA mods).2)
              (commonsDict (phaseA mods).2))).2.foldl
          (fun t s => aset t s.name s) (exportPass (phaseA mods).2))
        (resolvedPairs (exportPass (phaseA mods).2)
          (commonsDict (phaseA mods).2)) := rfl

theorem buildsyms_commons (mods : List Module) :
    (buildsyms mods).commons =
      (allocCommons (phaseA mods).1
        (remainingCommons (exportPass (phaseA mods).2)
          (commonsDict (phaseA mods).2))).2 := rfl

theorem buildsyms_modsyms (mods : List Module) :
    (buildsyms mods).modsyms =
      (phaseA mods).2.map (fun tab => tab.filter (fun p => !isCommon p.2)) := rfl

end Lk
namespace Lk

theorem exportPass_isSome_iff {mods : List Module} (hwf : wfMods mods)
    (n : String) :
    (lookupAL (exportPass (phaseA mods).2) n).isSome ↔ exportsNonCommon mods n := by
  constructor
  · intro h
    obtain ⟨s, hs⟩ := Option.isSome_iff_exists.mp h
    obtain ⟨tab, htab, q, hq, hq2⟩ := exportPass_origin hs
    have hg := exportPass_good hs
    have hx := mods_export_of_tabs hwf htab hq (by rw [hq2]; exact hg.1)
      (by rw [hq2]; exact hg.2.1)
    rwa [hq2, hg.2.2] at hx
  · intro h
    obtain ⟨tab, htab, q, hq, he, hc, hn⟩ := tabs_export_of_mods hwf h
    have hs := exportPass_isSome htab hq he hc
    rwa [hn] at hs

theorem buildsyms_alloc_names_nodup (mods : List Module) :
    ((allocCommons (phaseA mods).1
        (remainingCommons (exportPass (phaseA mods).2)
          (commonsDict (phaseA mods).2))).2.map Symbol.name).Nodup := by
  rw [allocCommons_names]
  exact (remainingCommons_keys_sublist _ _).nodup (commonsDict_nodup (phaseA mods).2)

theorem buildsyms_symtab_exported {mods : List Module} {n : String}
    (h : (lookupAL (exportPass (phaseA mods).2) n).isSome) :
    lookupAL (buildsyms mods).symtab n = lookupAL (exportPass (phaseA mods).2) n := by
  obtain ⟨s, hs⟩ := Option.isSome_iff_exists.mp h
  have hnotmem : n ∉ (allocCommons (phaseA mods).1
      (remainingCommons (exportPass (phaseA mods).2)
        (commonsDict (phaseA mods).2))).2.map Symbol.name := by
    rw [allocCommons_names]
    intro hmem
    obtain ⟨q, hq, hq1⟩ := List.mem_map.mp hmem
    have hnone := (remainingCommons_lookup_none hq).2
    rw [hq1, hs] at hnone
    cases hnone
  have h1 : lookupAL ((allocCommons (phaseA mods).1
      (remainingCommons (exportPass (phaseA mods).2)
        (commonsDict (phaseA mods).2))).2.foldl
      (fun t s => aset t s.name s) (exportPass (phaseA mods).2)) n
      = some s := by
    rw [foldl_aset_lookup_notmem _ _ _ hnotmem, hs]
  rw [buildsyms_symtab,
    lookupAL_updateAL_nodup _
      (resolvedPairs_keys_nodup _ _ (commonsDict_nodup (phaseA mods).2)) _ n]
  cases hr : lookupAL (resolvedPairs (exportPass (phaseA mods).2)
      (commonsDict (phaseA mods).2)) n with
  | none =>
      rw [h1, hs]
  | some v =>
      rw [lookupAL_resolvedPairs hr]

theorem buildsyms_symtab_common {mods : List Module} {s : Symbol}
    (hs : s ∈ (buildsyms mods).commons) :
    lookupAL (buildsyms mods).symtab s.name = some s := by
  rw [buildsyms_commons] at hs
  obtain ⟨hfl, q, hq, hname⟩ := allocCommons_mem _ _ _ hs
  have hnone : lookupAL (exportPass (phaseA mods).2) s.name = none := by
    rw [hname]
    exact (remainingCommons_lookup_none hq).2
  have h1 : lookupAL ((allocCommons (phaseA mods).1
      (remainingCommons (exportPass (phaseA mods).2)
        (commonsDict (phaseA mods).2))).2.foldl
      (fun t s => aset t s.name s) (exportPass (phaseA mods).2)) s.name
      = some s :=
    foldl_aset_lookup_mem _ _ _ (buildsyms_alloc_names_nodup mods) hs
  rw [buildsyms_symtab,
    lookupAL_updateAL_nodup _
      (resolvedPairs_keys_nodup _ _ (commonsDict_nodup (phaseA mods).2)) _ s.name]
  cases hr : lookupAL (resolvedPairs (exportPass (phaseA mods).2)
      (commonsDict (phaseA mods).2)) s.name with
  | none => exact h1
  | some v =>
      rw [lookupAL_resolvedPairs hr] at hnone
      cases hnone

theorem buildsyms_commons_sound {mods : List Module} (hwf : wfMods mods)
    {s : Symbol} (hs : s ∈ (buildsyms mods).commons) :
    (∃ v, isMaxRequested mods s.name v) ∧ ¬ exportsNonCommon mods s.name
      ∧ s.flags = 10 := by
  rw [buildsyms_commons] at hs
  obtain ⟨hfl, q, hq, hname⟩ := allocCommons_mem _ _ _ hs
  obtain ⟨hqc, hqnone⟩ := remainingCommons_lookup_none hq
  refine ⟨⟨q.2, hname ▸ commonsDict_isMax hwf hqc⟩, ?_, hfl⟩
  intro hexp
  have hsome := (exportPass_isSome_iff hwf s.name).mpr hexp
  rw [hname, hqnone] at hsome
  cases hsome

theorem buildsyms_commons_complete {mods : List Module} (hwf : wfMods mods)
    {n : String} {v : Int} (hreq : requestsCommon mods n v)
    (hexp : ¬ exportsNonCommon mods n) :
    ∃ s ∈ (buildsyms mods).commons, s.name = n := by
  obtain ⟨u, hu⟩ := Option.isSome_iff_exists.mp (commonsDict_req_isSome hwf hreq)
  have hmem : (n, u) ∈ commonsDict (phaseA mods).2 := mem_of_lookupAL hu
  have hnone : lookupAL (exportPass (phaseA mods).2) n = none := by
    cases hl : lookupAL (exportPass (phaseA mods).2) n with
    | none => rfl
    | some s =>
        exact absurd ((exportPass_isSome_iff hwf n).mp (by rw [hl]; rfl)) hexp
  have hrem : (n, u) ∈ remainingCommons (exportPass (phaseA mods).2)
      (commonsDict (phaseA mods).2) := by
    unfold remainingCommons
    rw [List.mem_filter]
    exact ⟨hmem, by simp [hnone]⟩
  rw [buildsyms_commons]
  exact allocCommons_exists _ _ _ hrem

end Lk
namespace Lk

/-- **C3** (amended): `buildsyms` raises no error on duplicate exports
(see the counterexample theorem); what does hold is that the global
symbol table collects every exported non-common name: any name exported
non-common by some module is bound in the final table to an exported,
non-common symbol. -/
theorem c3_exports_collected (mods : List Module) (hwf : wfMods mods)
    (n : String) (h : exportsNonCommon mods n) :
    ∃ s, lookupAL (buildsyms mods).symtab n = some s
      ∧ isExport s = true ∧ isCommon s = false := by
  have hs := (exportPass_isSome_iff hwf n).mpr h
  obtain ⟨s, hsome⟩ := Option.isSome_iff_exists.mp hs
  have heq := buildsyms_symtab_exported hs
  exact ⟨s, by rw [heq, hsome], (exportPass_good hsome).1,
    (exportPass_good hsome).2.1⟩

theorem c3_exports_collected_witness :
    wfMods c3mods ∧ exportsNonCommon c3mods "a"
      ∧ ∃ s, lookupAL (buildsyms c3mods).symtab "a" = some s
          ∧ isExport s = true ∧ isCommon s = false :=
  ⟨by unfold wfMods wfMod; decide, by unfold exportsNonCommon; decide,
    c3_exports_collected c3mods (by unfold wfMods wfMod; decide) "a"
      (by unfold exportsNonCommon; decide)⟩

/-- **C4**: for well-formed input modules, the allocated commons are
exactly the names requested common and not exported non-common; they sit
consecutively from the running end of bss (text+data+bss sizes of all
modules), each advancing the offset by the maximum size requested for its
name; each enters the global table as an `EXPORT|BSS` (flags 10) symbol;
a name exported non-common keeps its export-pass definition and gets no
common allocation; and every common entry is discarded from the
per-module tables. -/
theorem c4_commons_allocation (mods : List Module) (hwf : wfMods mods) :
    (∀ n : String,
        (∃ s ∈ (buildsyms mods).commons, s.name = n) ↔
          ((∃ v, requestsCommon mods n v) ∧ ¬ exportsNonCommon mods n))
    ∧ commonsChain mods (phaseA mods).1 (buildsyms mods).commons
    ∧ (phaseA mods).1 =
        Int.ofNat ((mods.map (fun m => segSize 0 m + segSize 1 m + segSize 2 m)).sum)
    ∧ (∀ s ∈ (buildsyms mods).commons,
        s.flags = 10 ∧ lookupAL (buildsyms mods).symtab s.name = some s)
    ∧ (∀ n : String, exportsNonCommon mods n →
        lookupAL (buildsyms mods).symtab n
          = lookupAL (exportPass (phaseA mods).2) n
        ∧ (∀ s ∈ (buildsyms mods).commons, s.name ≠ n))
    ∧ (∀ tab ∈ (buildsyms mods).modsyms, ∀ p ∈ tab, isCommon p.2 = false) := by
  refine ⟨?_, ?_, phaseA_fst mods, ?_, ?_, ?_⟩
  · intro n
    constructor
    · rintro ⟨s, hs, rfl⟩
      obtain ⟨⟨v, hmax⟩, hnexp, _⟩ := buildsyms_commons_sound hwf hs
      exact ⟨⟨v, hmax.1⟩, hnexp⟩
    · rintro ⟨⟨v, hreq⟩, hexp⟩
      exact buildsyms_commons_complete hwf hreq hexp
  · rw [buildsyms_commons]
    refine allocCommons_chain mods _ _ ?_
    intro q hq
    exact commonsDict_isMax hwf (remainingCommons_lookup_none hq).1
  · intro s hs
    exact ⟨(buildsyms_commons_sound hwf hs).2.2, buildsyms_symtab_common hs⟩
  · intro n hexp
    refine ⟨buildsyms_symtab_exported ((exportPass_isSome_iff hwf n).mpr hexp), ?_⟩
    intro s hs hcontra
    have hns := (buildsyms_commons_sound hwf hs).2.1
    rw [hcontra] at hns
    exact hns hexp
  · rw [buildsyms_modsyms]
    intro tab htab p hp
    obtain ⟨tab0, htab0, rfl⟩ := List.mem_map.mp htab
    rw [List.mem_filter] at hp
    simpa using hp.2

theorem c4_commons_allocation_witness :
    wfMods c4mods
    ∧ ((∀ n : String,
        (∃ s ∈ (buildsyms c4mods).commons, s.name = n) ↔
          ((∃ v, requestsCommon c4mods n v) ∧ ¬ exportsNonCommon c4mods n))
      ∧ commonsChain c4mods (phaseA c4mods).1 (buildsyms c4mods).commons
      ∧ (phaseA c4mods).1 =
          Int.ofNat ((c4mods.map
            (fun m => segSize 0 m + segSize 1 m + segSize 2 m)).sum)
      ∧ (∀ s ∈ (buildsyms c4mods).commons,
          s.flags = 10 ∧ lookupAL (buildsyms c4mods).symtab s.name = some s)
      ∧ (∀ n : String, exportsNonCommon c4mods n →
          lookupAL (buildsyms c4mods).symtab n
            = lookupAL (exportPass (phaseA c4mods).2) n
          ∧ (∀ s ∈ (buildsyms c4mods).commons, s.name ≠ n))
      ∧ (∀ tab ∈ (buildsyms c4mods).modsyms, ∀ p ∈ tab,
          isCommon p.2 = false)) :=
  ⟨by unfold wfMods wfMod; decide,
    c4_commons_allocation c4mods (by unfold wfMods wfMod; decide)⟩

end Lk

namespace Asm

/-- **C9** (code_bug): for an assembler statement `name = expr` or
`name .equ expr` the symbol table does NOT afterwards contain an entry
for `name`: the `=`/`.equ` arm of `Assembler.statement` constructs the
`Symbol` but never calls `addsym`, so a literal-constant definition is
silently dropped (no entry, no error); and when the expression names a
predefined symbol the arm crashes with `UnboundLocalError` on
`self.symtab[symbol]` before any definition could happen. -/
theorem c9_symbolic_constants_never_defined :
    (∃ st, statement (initState "foo = 5\n") = .done st
        ∧ st.symtab = startsyms
        ∧ lookupAL st.symtab "foo" = none
        ∧ st.errcount = 0)
    ∧ statement (initState "foo = b\n") = .pyerror .unboundLocal
    ∧ (∃ st, statement (initState "foo .equ 5\n") = .done st
        ∧ lookupAL st.symtab "foo" = none
        ∧ st.errcount = 0) :=
  ⟨⟨_, rfl, rfl, rfl, rfl⟩, rfl, ⟨_, rfl, rfl, rfl⟩⟩

end Asm

namespace Lk

/-- **C2** (code_bug): the writer `Module.__bytes__` does not produce the
documented format.  On a module with a single two-byte literal run it
emits the run bare, with no positive length byte (the spec-side encoder
`specModuleBytes`, which follows the claim and the reader
`Module.from_bytes`, prefixes the length 2); and on any module with a
symbol it raises, because `bytename` has no return statement and
`struct.pack` then rejects `None` (the spec-side encoder succeeds). -/
theorem c2_serialisation_diverges :
    (moduleBytes
        { text := [Elem.bs [170, 187]], data := [], symtab := [], bss_len := 0 }
      = some [2, 0, 0, 0, 0, 0, 170, 187, 0, 0, 0]
    ∧ specModuleBytes
        { text := [Elem.bs [170, 187]], data := [], symtab := [], bss_len := 0 }
      = some [2, 0, 0, 0, 0, 0, 2, 170, 187, 0, 0, 0])
    ∧ moduleBytes
        { text := [], data := [], symtab := [("a", ⟨8, "a", 0⟩)], bss_len := 0 }
      = none
    ∧ (specModuleBytes
        { text := [], data := [], symtab := [("a", ⟨8, "a", 0⟩)], bss_len := 0 }).isSome
      = true := by
  exact ⟨⟨rfl, rfl⟩, rfl, rfl⟩

end Lk
